import Mathlib

/-!
Shallow embedding of the ingestion pipeline of the rag-doc-uploader-parser
repository (TypeScript), together with proofs of the specification claims.

JavaScript strings are modelled as lists of characters (`JStr`).  Each
definition mirrors one function of the source; the source file and function
are named in the doc comment.
-/

set_option maxHeartbeats 1000000
set_option maxRecDepth 8192
set_option linter.unusedVariables false

namespace Rag

/-- JavaScript strings are modelled as lists of characters. -/
abbrev JStr := List Char

/-- Whitespace test used by the model of `String.prototype.trim`. -/
def jsWS (c : Char) : Bool := c.isWhitespace

/-- Model of JavaScript `trimStart`: drop leading whitespace. -/
def jsTrimL (l : JStr) : JStr := l.dropWhile jsWS

/-- Model of JavaScript `trimEnd`: drop trailing whitespace. -/
def jsTrimR (l : JStr) : JStr := (l.reverse.dropWhile jsWS).reverse

/-- Model of JavaScript `String.prototype.trim`. -/
def jsTrim (l : JStr) : JStr := jsTrimR (jsTrimL l)

/-- Helper for `jsSplit`: prepend one character to an already-split tail. -/
def consSplit (sep c : Char) : List JStr → List JStr
  | [] => [[]]
  | h :: r => if c = sep then [] :: h :: r else (c :: h) :: r

/-- Model of JavaScript `String.prototype.split(sep)` for a one-character
separator: splits on every occurrence, keeping empty pieces, and returns
`[""]` on the empty string. -/
def jsSplit (sep : Char) : JStr → List JStr
  | [] => [[]]
  | c :: t => consSplit sep c (jsSplit sep t)

/-- Model of JavaScript `Array.prototype.join(sep)` for a one-character
separator: the pieces interleaved with the separator. -/
def jsJoin (sep : Char) : List JStr → JStr
  | [] => []
  | [p] => p
  | p :: q :: r => p ++ sep :: jsJoin sep (q :: r)

/-- Model of JavaScript `arr.slice(-k)` for a non-negative integer `k`:
for `k > 0` the last `min k arr.length` elements; for `k = 0` (JavaScript
`slice(-0)` is `slice(0)`) the whole array. -/
def jsSliceLast (k : Nat) (l : List α) : List α :=
  if k = 0 then l else l.drop (l.length - k)

/-- Sentence-boundary characters of the chunker regex `[.!?]`
(src/services/openai.service.ts, line 146). -/
def isPunct (c : Char) : Bool := c = '.' || c = '!' || c = '?'

/-- The non-boundary run `[^.!?]+` attempted at the current match start of
the chunker regex (after skipping characters that cannot start a match). -/
def sentA (l : JStr) : JStr := (l.dropWhile isPunct).takeWhile (fun c => !isPunct c)

/-- Remainder of the input after the non-boundary run `sentA`. -/
def sentR (l : JStr) : JStr := (l.dropWhile isPunct).dropWhile (fun c => !isPunct c)

/-- The boundary run `[.!?]+` following `sentA`. -/
def sentB (l : JStr) : JStr := (sentR l).takeWhile isPunct

/-- Remainder of the input after one full regex match. -/
def sentRest (l : JStr) : JStr := (sentR l).dropWhile isPunct

theorem sentRest_length_lt (l : JStr) (ha : sentA l ≠ []) (hb : sentB l ≠ []) :
    (sentRest l).length < l.length := by
  have h1 : (l.dropWhile isPunct).length ≤ l.length :=
    (List.dropWhile_sublist isPunct).length_le
  have h2 : (sentA l).length + (sentR l).length = (l.dropWhile isPunct).length := by
    have h := List.takeWhile_append_dropWhile (p := fun c => !isPunct c)
      (l := l.dropWhile isPunct)
    calc (sentA l).length + (sentR l).length
        = (sentA l ++ sentR l).length := by simp
      _ = (l.dropWhile isPunct).length := by rw [sentA, sentR, h]
  have h3 : (sentB l).length + (sentRest l).length = (sentR l).length := by
    have h := List.takeWhile_append_dropWhile (p := isPunct) (l := sentR l)
    calc (sentB l).length + (sentRest l).length
        = (sentB l ++ sentRest l).length := by simp
      _ = (sentR l).length := by rw [sentB, sentRest, h]
  have ha' : 0 < (sentA l).length := List.length_pos.mpr ha
  have hb' : 0 < (sentB l).length := List.length_pos.mpr hb
  omega

/-- Fuel-indexed worker for the regex model `jsSentences`; the fuel is only
a structural-recursion device and never runs out when it starts at the
input length (see `jsSentences_eq`). -/
def jsSentencesF : Nat → JStr → List JStr
  | 0, _ => []
  | fuel + 1, l =>
    if sentA l = [] ∨ sentB l = [] then []
    else (sentA l ++ sentB l) :: jsSentencesF fuel (sentRest l)

/-- Model of the global regex match `text.match(/[^.!?]+[.!?]+/g)` of
src/services/openai.service.ts line 146: repeatedly skip characters that
cannot start a match, then take a maximal run of non-boundary characters
followed by a maximal run of boundary characters; a trailing run without a
closing boundary character yields no further match. -/
def jsSentences (l : JStr) : List JStr := jsSentencesF l.length l

theorem sentA_nil : sentA [] = [] := rfl

theorem jsSentencesF_congr (f1 : Nat) : ∀ (f2 : Nat) (l : JStr),
    l.length ≤ f1 → l.length ≤ f2 → jsSentencesF f1 l = jsSentencesF f2 l := by
  induction f1 with
  | zero =>
    intro f2 l h1 h2
    have hl : l = [] := List.eq_nil_of_length_eq_zero (Nat.le_zero.mp h1)
    subst hl
    cases f2 with
    | zero => rfl
    | succ k => rw [jsSentencesF, jsSentencesF, if_pos (Or.inl sentA_nil)]
  | succ f1 ih =>
    intro f2 l h1 h2
    cases f2 with
    | zero =>
      have hl : l = [] := List.eq_nil_of_length_eq_zero (Nat.le_zero.mp h2)
      subst hl
      rw [jsSentencesF, jsSentencesF, if_pos (Or.inl sentA_nil)]
    | succ k =>
      rw [jsSentencesF, jsSentencesF]
      by_cases hc : sentA l = [] ∨ sentB l = []
      · rw [if_pos hc, if_pos hc]
      · rw [if_neg hc, if_neg hc]
        rw [not_or] at hc
        have hlt := sentRest_length_lt l hc.1 hc.2
        rw [ih k (sentRest l) (by omega) (by omega)]

/-- One-step unfolding of the regex model, mirroring its recursion on the
remaining input. -/
theorem jsSentences_eq (l : JStr) :
    jsSentences l =
      if sentA l = [] ∨ sentB l = [] then []
      else (sentA l ++ sentB l) :: jsSentences (sentRest l) := by
  rw [jsSentences]
  cases hlen : l.length with
  | zero =>
    have hl : l = [] := List.eq_nil_of_length_eq_zero hlen
    subst hl
    rw [if_pos (Or.inl sentA_nil)]
    rfl
  | succ k =>
    rw [jsSentencesF]
    by_cases hc : sentA l = [] ∨ sentB l = []
    · rw [if_pos hc, if_pos hc]
    · rw [if_neg hc, if_neg hc]
      rw [not_or] at hc
      have hlt := sentRest_length_lt l hc.1 hc.2
      rw [jsSentences, jsSentencesF_congr k (sentRest l).length (sentRest l) (by omega) le_rfl]

/-- State of the sentence-packing loop of `splitTextIntoChunks`
(src/services/openai.service.ts lines 148-165): the emitted chunks, the
running buffer `currentChunk` and the running counter `currentLength`. -/
structure ChunkState where
  chunks : List JStr
  cur : JStr
  curLen : Nat
deriving Repr, DecidableEq

/-- One iteration of the `for (const sentence of sentences)` loop of
`splitTextIntoChunks` (src/services/openai.service.ts lines 151-165):
if adding the sentence would exceed the bound and the buffer is non-empty,
the trimmed buffer is emitted and the buffer is reseeded with the join of
its last `ow = Math.floor(overlap / 10)` space-separated words plus a
space; then the sentence and a space are appended. -/
def chunkStep (eff ow : Nat) (st : ChunkState) (s : JStr) : ChunkState :=
  let st1 :=
    if st.curLen + s.length > eff ∧ st.cur ≠ [] then
      let words := jsSplit ' ' st.cur
      let seed := jsJoin ' ' (jsSliceLast ow words) ++ [' ']
      { chunks := st.chunks ++ [jsTrim st.cur], cur := seed, curLen := seed.length }
    else st
  { chunks := st1.chunks, cur := st1.cur ++ s ++ [' '], curLen := st1.curLen + s.length + 1 }

/-- The sentence list actually iterated by the chunker:
`text.match(/[^.!?]+[.!?]+/g) || [text]`
(src/services/openai.service.ts line 146). -/
def chunkSentences (text : JStr) : List JStr :=
  match jsSentences text with
  | [] => [text]
  | l => l

/-- Model of `OpenAIService.splitTextIntoChunks`
(src/services/openai.service.ts lines 128-173).  The effective bound is
`min chunkSize 8000`; a text not longer than it is returned as a single
(untrimmed) chunk; otherwise the text is split into regex sentences
(falling back to the whole text when there is no match) and packed by
`chunkStep`; a final non-blank buffer is emitted trimmed. -/
def splitTextIntoChunks (text : JStr) (chunkSize : Nat := 8000) (overlap : Nat := 200) :
    List JStr :=
  let eff := min chunkSize 8000
  if text.length ≤ eff then [text]
  else
    let fin := (chunkSentences text).foldl (chunkStep eff (overlap / 10)) ⟨[], [], 0⟩
    if jsTrim fin.cur = [] then fin.chunks else fin.chunks ++ [jsTrim fin.cur]

/-! ### Basic lemmas about the string primitives -/

theorem mem_dropWhile_of_not (p : α → Bool) {l : List α} {c : α}
    (hc : c ∈ l) (hp : ¬ p c) : c ∈ l.dropWhile p := by
  have h := List.takeWhile_append_dropWhile (p := p) (l := l)
  rw [← h] at hc
  rcases List.mem_append.mp hc with h1 | h1
  · exact absurd (List.mem_takeWhile_imp h1) hp
  · exact h1

/-- A list containing a non-whitespace character does not trim to the empty
list. -/
theorem jsTrim_ne_nil_of_mem {l : JStr} {c : Char}
    (hc : c ∈ l) (hws : ¬ jsWS c) : jsTrim l ≠ [] := by
  have h1 : c ∈ jsTrimL l := mem_dropWhile_of_not jsWS hc hws
  have h2 : c ∈ jsTrimR (jsTrimL l) := by
    rw [jsTrimR, List.mem_reverse]
    exact mem_dropWhile_of_not jsWS (List.mem_reverse.mpr h1) hws
  intro hnil
  rw [jsTrim] at hnil
  rw [hnil] at h2
  exact List.not_mem_nil c h2

theorem jsTrimL_eq_nil_iff {z : JStr} : jsTrimL z = [] ↔ ∀ c ∈ z, jsWS c := by
  rw [jsTrimL, List.dropWhile_eq_nil_iff]

theorem jsTrimR_eq_nil_iff {z : JStr} : jsTrimR z = [] ↔ ∀ c ∈ z, jsWS c := by
  rw [jsTrimR]
  rw [List.reverse_eq_nil_iff, List.dropWhile_eq_nil_iff]
  constructor
  · intro h c hc; exact h c (List.mem_reverse.mpr hc)
  · intro h c hc; exact h c (List.mem_reverse.mp hc)

theorem jsTrimL_append_of_ne {a : JStr} (z : JStr) (h : jsTrimL a ≠ []) :
    jsTrimL (a ++ z) = jsTrimL a ++ z := by
  rw [jsTrimL, jsTrimL] at *
  rw [List.dropWhile_append, if_neg (by simpa [List.isEmpty_iff] using h)]

theorem jsTrimL_append_of_nil {a : JStr} (z : JStr) (h : jsTrimL a = []) :
    jsTrimL (a ++ z) = jsTrimL z := by
  rw [jsTrimL, jsTrimL] at *
  rw [List.dropWhile_append, if_pos (by simpa [List.isEmpty_iff] using h)]

theorem jsTrimR_append_of_ne (a : JStr) {z : JStr} (h : jsTrimR z ≠ []) :
    jsTrimR (a ++ z) = a ++ jsTrimR z := by
  have hz : z.reverse.dropWhile jsWS ≠ [] := by
    intro hc; exact h (by rw [jsTrimR, hc]; rfl)
  rw [jsTrimR, jsTrimR, List.reverse_append, List.dropWhile_append,
    if_neg (by simpa [List.isEmpty_iff] using hz), List.reverse_append,
    List.reverse_reverse]

theorem jsTrimR_append_of_ws (a : JStr) {z : JStr} (h : ∀ c ∈ z, jsWS c) :
    jsTrimR (a ++ z) = jsTrimR a := by
  have hz : z.reverse.dropWhile jsWS = [] := by
    rw [List.dropWhile_eq_nil_iff]
    intro c hc; exact h c (List.mem_reverse.mp hc)
  rw [jsTrimR, jsTrimR, List.reverse_append, List.dropWhile_append,
    if_pos (by simp [List.isEmpty_iff, hz])]

theorem jsTrimL_decomp (z : JStr) :
    ∃ w, z = w ++ jsTrimL z ∧ ∀ c ∈ w, jsWS c := by
  refine ⟨z.takeWhile jsWS, ?_, fun c hc => List.mem_takeWhile_imp hc⟩
  rw [jsTrimL, List.takeWhile_append_dropWhile]

theorem jsTrimR_decomp (z : JStr) :
    ∃ w, z = jsTrimR z ++ w ∧ ∀ c ∈ w, jsWS c := by
  refine ⟨(z.reverse.takeWhile jsWS).reverse, ?_, ?_⟩
  · rw [jsTrimR, ← List.reverse_append, List.takeWhile_append_dropWhile,
      List.reverse_reverse]
  · intro c hc; exact List.mem_takeWhile_imp (List.mem_reverse.mp hc)

/-- `trimStart` is the trimmed string followed by trailing whitespace. -/
theorem jsTrimL_eq_trim_append (z : JStr) :
    ∃ w, jsTrimL z = jsTrim z ++ w ∧ ∀ c ∈ w, jsWS c := by
  rcases jsTrimR_decomp (jsTrimL z) with ⟨w, hw, hws⟩
  exact ⟨w, by rw [jsTrim]; exact hw, hws⟩

theorem jsTrimR_ne_nil_of_mem {z : JStr} {c : Char} (hc : c ∈ z) (h : ¬ jsWS c) :
    jsTrimR z ≠ [] := by
  intro hnil
  exact h (jsTrimR_eq_nil_iff.mp hnil c hc)

theorem jsTrimL_ne_nil_of_mem {z : JStr} {c : Char} (hc : c ∈ z) (h : ¬ jsWS c) :
    jsTrimL z ≠ [] := by
  intro hnil
  exact h (jsTrimL_eq_nil_iff.mp hnil c hc)

/-- Computation of `trim` on an append whose right part holds a
non-whitespace character and whose left part trims to non-empty. -/
theorem jsTrim_append_decomp {a ext : JStr} {c : Char} (hca : c ∈ a) (hws : ¬ jsWS c)
    {d : Char} (hde : d ∈ ext) (hwd : ¬ jsWS d) :
    ∃ w, (∀ x ∈ w, jsWS x) ∧ jsTrim (a ++ ext) = jsTrim a ++ w ++ jsTrimR ext := by
  have h1 : jsTrimL a ≠ [] := jsTrimL_ne_nil_of_mem hca hws
  have h2 : jsTrimR ext ≠ [] := jsTrimR_ne_nil_of_mem hde hwd
  rcases jsTrimL_eq_trim_append a with ⟨w, hw, hwws⟩
  refine ⟨w, hwws, ?_⟩
  rw [jsTrim, jsTrimL_append_of_ne ext h1, jsTrimR_append_of_ne _ h2, hw]

/-- Trimming preserves the suffix relation, provided the suffix holds a
non-whitespace character. -/
theorem jsTrim_sufx_mono {y x : JStr} (hyx : y <:+ x) {c : Char}
    (hc : c ∈ y) (hws : ¬ jsWS c) : jsTrim y <:+ jsTrim x := by
  rcases hyx with ⟨u, hu⟩
  subst hu
  by_cases hnil : jsTrimL u = []
  · simp only [jsTrim]
    rw [jsTrimL_append_of_nil y hnil]
  · have h2 : jsTrimR (jsTrimL y) ≠ [] := by
      have hmem : c ∈ jsTrimL y := mem_dropWhile_of_not jsWS hc hws
      exact jsTrimR_ne_nil_of_mem hmem hws
    rcases jsTrimL_decomp y with ⟨w, hw, hwws⟩
    have hyr : jsTrimR y = w ++ jsTrim y := by
      conv_lhs => rw [hw]
      rw [jsTrimR_append_of_ne _ h2, jsTrim]
    have hyne : jsTrimR y ≠ [] := by
      have hmem : c ∈ y := hc
      exact jsTrimR_ne_nil_of_mem hmem hws
    simp only [jsTrim]
    rw [jsTrimL_append_of_ne y hnil, jsTrimR_append_of_ne _ hyne, hyr]
    exact ⟨jsTrimL u ++ w, by simp [jsTrim, List.append_assoc]⟩

/-- Trimming a buffer that begins with `a` yields a string beginning with
`trim a`, provided both parts hold a non-whitespace character. -/
theorem jsTrim_pre_append {a ext : JStr} {c : Char} (hca : c ∈ a) (hws : ¬ jsWS c)
    {d : Char} (hde : d ∈ ext) (hwd : ¬ jsWS d) :
    jsTrim a <+: jsTrim (a ++ ext) := by
  rcases jsTrim_append_decomp hca hws hde hwd with ⟨w, hwws, heq⟩
  rw [heq]
  exact ⟨w ++ jsTrimR ext, by simp [List.append_assoc]⟩

/-- A prefix of the trimmed buffer stays a prefix as the buffer grows at the
end, provided the buffer holds a non-whitespace character. -/
theorem jsTrim_pre_stable {cur ext sp : JStr} {c : Char} (hc : c ∈ cur)
    (hws : ¬ jsWS c) (hsp : sp <+: jsTrim cur) : sp <+: jsTrim (cur ++ ext) := by
  by_cases hext : ∃ d ∈ ext, ¬ jsWS d
  · rcases hext with ⟨d, hde, hwd⟩
    exact hsp.trans (jsTrim_pre_append hc hws hde hwd)
  · push_neg at hext
    have h1 : jsTrimL cur ≠ [] := jsTrimL_ne_nil_of_mem hc hws
    rw [jsTrim, jsTrimL_append_of_ne ext h1,
      jsTrimR_append_of_ws _ (by intro x hx; exact hext x hx)]
    exact hsp

theorem jsSplit_ne_nil (sep : Char) (l : JStr) : jsSplit sep l ≠ [] := by
  cases l with
  | nil => simp [jsSplit]
  | cons c t =>
    rw [jsSplit]
    rcases h : jsSplit sep t with _ | ⟨p, r⟩
    · simp [consSplit]
    · by_cases hc : c = sep <;> simp [consSplit, hc]

/-- Joining the pieces of a split yields back the original string. -/
theorem jsJoin_jsSplit (sep : Char) (l : JStr) : jsJoin sep (jsSplit sep l) = l := by
  induction l with
  | nil => rfl
  | cons c t ih =>
    rw [jsSplit]
    rcases h : jsSplit sep t with _ | ⟨p, r⟩
    · exact absurd h (jsSplit_ne_nil sep t)
    · rw [h] at ih
      rw [consSplit]
      by_cases hc : c = sep
      · rw [if_pos hc, jsJoin, hc, ih, List.nil_append]
      · rw [if_neg hc]
        cases r with
        | nil => rw [jsJoin] at ih ⊢; rw [← ih]
        | cons q r2 =>
          rw [jsJoin] at ih ⊢
          rw [List.cons_append, ih]

/-- Joining a final segment of a piece list yields a suffix of the join of
the whole list. -/
theorem jsJoin_drop_sufx (sep : Char) : ∀ (parts : List JStr) (k : Nat),
    jsJoin sep (parts.drop k) <:+ jsJoin sep parts := by
  intro parts
  induction parts with
  | nil => intro k; simp
  | cons p ps ih =>
    intro k
    cases k with
    | zero => exact List.suffix_refl _
    | succ k =>
      rw [List.drop_succ_cons]
      refine (ih k).trans ?_
      cases ps with
      | nil => simp [jsJoin]
      | cons q r => rw [jsJoin]; exact ⟨p ++ [sep], by simp⟩

/-- The overlap seed taken by `chunkStep` — the join of the last `ow`
space-separated words — is a literal suffix of the buffer. -/
theorem seed_sufx (ow : Nat) (cur : JStr) :
    jsJoin ' ' (jsSliceLast ow (jsSplit ' ' cur)) <:+ cur := by
  rw [jsSliceLast]
  by_cases h : ow = 0
  · rw [if_pos h, jsJoin_jsSplit]
  · rw [if_neg h]
    have := jsJoin_drop_sufx ' ' (jsSplit ' ' cur) ((jsSplit ' ' cur).length - ow)
    rw [jsJoin_jsSplit] at this
    exact this

/-- Splitting a string ending in the separator appends an empty piece. -/
theorem jsSplit_append_sep (sep : Char) : ∀ (X : JStr),
    jsSplit sep (X ++ [sep]) = jsSplit sep X ++ [[]] := by
  intro X
  induction X with
  | nil => simp [jsSplit, consSplit]
  | cons c t ih =>
    rw [List.cons_append, jsSplit, ih]
    rcases h : jsSplit sep t with _ | ⟨p, r⟩
    · exact absurd h (jsSplit_ne_nil sep t)
    · rw [jsSplit, h]
      by_cases hc : c = sep <;> simp [consSplit, hc]

/-- Splitting a string ending in a non-separator character appends that
character to the last piece. -/
theorem jsSplit_append_nonsep (sep : Char) {d : Char} (hd : d ≠ sep) : ∀ (X : JStr),
    ∃ ini lastp, jsSplit sep X = ini ++ [lastp] ∧
      jsSplit sep (X ++ [d]) = ini ++ [lastp ++ [d]] := by
  intro X
  induction X with
  | nil =>
    refine ⟨[], [], rfl, ?_⟩
    simp [jsSplit, consSplit, hd]
  | cons c t ih =>
    rcases ih with ⟨ini, lastp, h1, h2⟩
    rw [List.cons_append, jsSplit, jsSplit, h2, h1]
    cases ini with
    | nil =>
      by_cases hc : c = sep
      · exact ⟨[[]], lastp, by simp [consSplit, hc], by simp [consSplit, hc]⟩
      · exact ⟨[], c :: lastp, by simp [consSplit, hc], by simp [consSplit, hc]⟩
    | cons i0 ini2 =>
      by_cases hc : c = sep
      · exact ⟨[] :: i0 :: ini2, lastp, by simp [consSplit, hc], by simp [consSplit, hc]⟩
      · exact ⟨(c :: i0) :: ini2, lastp, by simp [consSplit, hc], by simp [consSplit, hc]⟩

/-- Joining a piece list whose last two pieces are `q` and the empty piece
produces a string ending in `q` followed by the separator. -/
theorem jsJoin_concat_pair (sep : Char) : ∀ (ys : List JStr) (q : JStr),
    ∃ t, jsJoin sep (ys ++ [q, []]) = t ++ q ++ [sep] := by
  intro ys
  induction ys with
  | nil => intro q; exact ⟨[], by simp [jsJoin]⟩
  | cons y ys2 ih =>
    intro q
    rcases ih q with ⟨t, ht⟩
    rcases hys : ys2 ++ [q, []] with _ | ⟨z, zs⟩
    · exact absurd hys (by simp)
    · refine ⟨y ++ sep :: t, ?_⟩
      rw [List.cons_append, hys, jsJoin, ← hys, ht]
      simp

/-- Every sentence produced by the regex model ends with a boundary
character; in particular it contains a non-whitespace character. -/
theorem jsSentencesF_mem_punct (fuel : Nat) : ∀ (l s : JStr),
    s ∈ jsSentencesF fuel l → ∃ c ∈ s, isPunct c := by
  induction fuel with
  | zero => intro l s hs; exact absurd hs (List.not_mem_nil s)
  | succ fuel ih =>
    intro l s hs
    rw [jsSentencesF] at hs
    by_cases hc : sentA l = [] ∨ sentB l = []
    · rw [if_pos hc] at hs; exact absurd hs (List.not_mem_nil s)
    · rw [if_neg hc] at hs
      rw [not_or] at hc
      rcases List.mem_cons.mp hs with hs1 | hs1
      · rcases List.exists_mem_of_ne_nil _ hc.2 with ⟨c, hcm⟩
        exact ⟨c, by simp [hs1, List.mem_append, hcm], List.mem_takeWhile_imp hcm⟩
      · exact ih (sentRest l) s hs1

theorem jsSentences_mem_punct {l : JStr} {s : JStr} (hs : s ∈ jsSentences l) :
    ∃ c ∈ s, isPunct c :=
  jsSentencesF_mem_punct l.length l s hs

theorem punct_not_ws {c : Char} (h : isPunct c) : ¬ jsWS c := by
  rw [isPunct] at h
  rcases Bool.or_eq_true_iff.mp h with h1 | h1
  · rcases Bool.or_eq_true_iff.mp h1 with h2 | h2 <;>
      (rw [decide_eq_true_eq] at h2; subst h2; decide)
  · rw [decide_eq_true_eq] at h1; subst h1; decide

/-- The running buffer after a `chunkStep` always ends with the appended
sentence followed by a space. -/
theorem chunkStep_cur (eff ow : Nat) (st : ChunkState) (s : JStr) :
    ∃ pre, (chunkStep eff ow st s).cur = pre ++ s ++ [' '] := by
  rw [chunkStep]
  split <;> exact ⟨_, rfl⟩

theorem chunkStep_chunks_mono (eff ow : Nat) (st : ChunkState) (s : JStr) :
    st.chunks ≠ [] → (chunkStep eff ow st s).chunks ≠ [] := by
  intro h
  rw [chunkStep]
  split
  · simp
  · exact h

/-- After folding the packing loop over a non-empty sentence list, either a
chunk was already emitted or the final buffer holds the last sentence. -/
theorem chunkFold_last (eff ow : Nat) (init : ChunkState) (l : List JStr) (s : JStr) :
    ∃ pre, (List.foldl (chunkStep eff ow) init (l ++ [s])).cur = pre ++ s ++ [' '] := by
  rw [List.foldl_append]
  exact chunkStep_cur eff ow _ s

/-! ### Length and overlap structure of the packing loop (claim C1) -/

theorem jsTrim_append_space (z : JStr) : jsTrim (z ++ [' ']) = jsTrim z := by
  by_cases h : jsTrimL z = []
  · rw [jsTrim, jsTrimL_append_of_nil _ h, jsTrim, h]
    rfl
  · rw [jsTrim, jsTrimL_append_of_ne _ h,
      jsTrimR_append_of_ws _ (by intro c hc; simp at hc; simp [hc, jsWS]), jsTrim]

theorem jsTrimR_length_le (z : JStr) : (jsTrimR z).length ≤ z.length := by
  rw [jsTrimR]
  calc (z.reverse.dropWhile jsWS).reverse.length
      = (z.reverse.dropWhile jsWS).length := List.length_reverse _
    _ ≤ z.reverse.length := (List.dropWhile_sublist jsWS).length_le
    _ = z.length := List.length_reverse z

theorem jsTrim_length_le (z : JStr) : (jsTrim z).length ≤ z.length := by
  rw [jsTrim]
  calc (jsTrimR (jsTrimL z)).length ≤ (jsTrimL z).length := jsTrimR_length_le _
    _ ≤ z.length := (List.dropWhile_sublist jsWS).length_le

/-- Every sentence of the regex model ends in a boundary character. -/
theorem jsSentences_last_punct {l s : JStr} (hs : s ∈ jsSentences l) :
    ∃ s0 d, isPunct d ∧ s = s0 ++ [d] := by
  rw [jsSentences] at hs
  generalize hf : l.length = fuel at hs
  clear hf
  induction fuel generalizing l with
  | zero => exact absurd hs (List.not_mem_nil s)
  | succ fuel ih =>
    rw [jsSentencesF] at hs
    by_cases hc : sentA l = [] ∨ sentB l = []
    · rw [if_pos hc] at hs; exact absurd hs (List.not_mem_nil s)
    · rw [if_neg hc] at hs
      rw [not_or] at hc
      rcases List.mem_cons.mp hs with hs1 | hs1
      · rcases List.eq_nil_or_concat (sentB l) with hb | ⟨b0, d, hb⟩
        · exact absurd hb hc.2
        rw [List.concat_eq_append] at hb
        refine ⟨sentA l ++ b0, d, ?_, by rw [hs1, hb, List.append_assoc]⟩
        have hd : d ∈ sentB l := by rw [hb]; simp
        exact List.mem_takeWhile_imp hd
      · exact ih hs1

/-- The trimmed buffer respects the bound when the raw buffer is within one
character of it: the buffer always carries a trailing space. -/
theorem trim_le_of_le {cur : JStr} {eff : Nat} (pre s : JStr)
    (hform : cur = pre ++ (s ++ [' '])) (hlen : cur.length ≤ eff + 1) :
    (jsTrim cur).length ≤ eff := by
  have h1 : cur = (pre ++ s) ++ [' '] := by rw [hform, List.append_assoc]
  have h2 : jsTrim cur = jsTrim (pre ++ s) := by rw [h1, jsTrim_append_space]
  have h3 : (pre ++ s).length + 1 = cur.length := by
    rw [h1]
    simp only [List.length_append, List.length_cons, List.length_nil]
  calc (jsTrim cur).length = (jsTrim (pre ++ s)).length := by rw [h2]
    _ ≤ (pre ++ s).length := jsTrim_length_le _
    _ ≤ eff := by omega

/-- Invariant of the packing loop delivering the length characterisation:
the counter mirrors the buffer length; the buffer (when non-empty) ends in a
sentence plus space; the buffer is within one character of the bound unless
it consists of an overlap seed plus a single just-appended sentence; every
emitted chunk respects the bound or is the trim of a seed plus a single
sentence. -/
def LenInv (eff : Nat) (S : List JStr) (st : ChunkState) : Prop :=
  st.curLen = st.cur.length ∧
  (st.cur = [] ∨ ∃ pre s, s ∈ S ∧ st.cur = pre ++ (s ++ [' '])) ∧
  (st.cur = [] ∨ st.cur.length ≤ eff + 1 ∨ ∃ w s, s ∈ S ∧ st.cur = w ++ (s ++ [' '])) ∧
  (∀ c ∈ st.chunks, c.length ≤ eff ∨ ∃ w s, s ∈ S ∧ c = jsTrim (w ++ (s ++ [' '])))

theorem chunkStep_lenInv {eff ow : Nat} {S : List JStr} {st : ChunkState} {s : JStr}
    (hs : s ∈ S) (hInv : LenInv eff S st) : LenInv eff S (chunkStep eff ow st s) := by
  obtain ⟨hLen, hForm, hOk, hChunks⟩ := hInv
  rw [chunkStep]
  by_cases hg : st.curLen + s.length > eff ∧ st.cur ≠ []
  · rw [if_pos hg]
    refine ⟨by simp; omega, ?_, ?_, ?_⟩
    · exact Or.inr ⟨jsJoin ' ' (jsSliceLast ow (jsSplit ' ' st.cur)) ++ [' '], s, hs,
        by simp [List.append_assoc]⟩
    · exact Or.inr (Or.inr ⟨jsJoin ' ' (jsSliceLast ow (jsSplit ' ' st.cur)) ++ [' '], s, hs,
        by simp [List.append_assoc]⟩)
    · intro c hc
      simp only [List.mem_append, List.mem_singleton] at hc
      rcases hc with hc | hc
      · exact hChunks c hc
      · subst hc
        rcases hOk with hnil | hle | ⟨w, s2, hs2, hform⟩
        · exact absurd hnil hg.2
        · rcases hForm with hnil | ⟨pre, s2, hs2, hform⟩
          · exact absurd hnil hg.2
          · exact Or.inl (trim_le_of_le pre s2 hform hle)
        · exact Or.inr ⟨w, s2, hs2, by rw [hform]⟩
  · rw [if_neg hg]
    rw [not_and_or, not_lt] at hg
    refine ⟨by simp [hLen, Nat.add_assoc], ?_, ?_, hChunks⟩
    · exact Or.inr ⟨st.cur, s, hs, by simp [List.append_assoc]⟩
    · rcases hg with hle | hnil
      · refine Or.inr (Or.inl ?_)
        simp only [List.append_assoc, List.length_append, List.length_cons,
          List.length_nil]
        omega
      · rw [not_not] at hnil
        refine Or.inr (Or.inr ⟨[], s, hs, ?_⟩)
        rw [hnil]
        simp [List.append_assoc]

theorem chunkFold_lenInv {eff ow : Nat} {S : List JStr} :
    ∀ (l : List JStr) (st : ChunkState), (∀ s ∈ l, s ∈ S) → LenInv eff S st →
      LenInv eff S (l.foldl (chunkStep eff ow) st) := by
  intro l
  induction l with
  | nil => intro st _ h; exact h
  | cons s t ih =>
    intro st hmem h
    rw [List.foldl_cons]
    exact ih _ (fun x hx => hmem x (List.mem_cons_of_mem s hx))
      (chunkStep_lenInv (hmem s (List.mem_cons_self s t)) h)

theorem lenInv_init (eff : Nat) (S : List JStr) : LenInv eff S ⟨[], [], 0⟩ :=
  ⟨rfl, Or.inl rfl, Or.inl rfl, by intro c hc; exact absurd hc (List.not_mem_nil c)⟩

/-- Length characterisation of the chunker output: every emitted chunk
either respects the effective bound or is the trim of an overlap seed
followed by a single sentence (the sentence that overflowed the bound). -/
theorem splitTextIntoChunks_length_char (text : JStr) (cs ov : Nat)
    (h : min cs 8000 < text.length) :
    ∀ c ∈ splitTextIntoChunks text cs ov,
      c.length ≤ min cs 8000 ∨
        ∃ w s, s ∈ chunkSentences text ∧ c = jsTrim (w ++ (s ++ [' '])) := by
  intro c hc
  rw [splitTextIntoChunks, if_neg (by omega)] at hc
  have hInv := @chunkFold_lenInv (min cs 8000) (ov / 10)
    (chunkSentences text) (chunkSentences text) ⟨[], [], 0⟩
    (fun s hs => hs) (lenInv_init _ _)
  obtain ⟨hLen, hForm, hOk, hChunks⟩ := hInv
  set fin := (chunkSentences text).foldl (chunkStep (min cs 8000) (ov / 10)) ⟨[], [], 0⟩
  by_cases hnil : jsTrim fin.cur = []
  · rw [if_pos hnil] at hc
    exact hChunks c hc
  · rw [if_neg hnil] at hc
    simp only [List.mem_append, List.mem_singleton] at hc
    rcases hc with hc | hc
    · exact hChunks c hc
    · subst hc
      rcases hOk with hcnil | hle | ⟨w, s2, hs2, hform⟩
      · rw [hcnil] at hnil; exact absurd rfl hnil
      · rcases hForm with hcnil | ⟨pre, s2, hs2, hform⟩
        · rw [hcnil] at hnil; exact absurd rfl hnil
        · exact Or.inl (trim_le_of_le pre s2 hform hle)
      · exact Or.inr ⟨w, s2, hs2, by rw [hform]⟩

/-- Two adjacent chunks share a span: a non-empty string that ends the
first chunk and begins the second. -/
def sharedSpan (a b : JStr) : Prop := ∃ sp, sp ≠ [] ∧ sp <:+ a ∧ sp <+: b

/-- A sentence list in which every element ends with a boundary
character. -/
def SentOk (S : List JStr) : Prop := ∀ s ∈ S, ∃ s0 d, isPunct d ∧ s = s0 ++ [d]

theorem punct_ne_space {d : Char} (h : isPunct d) : d ≠ ' ' := by
  rw [isPunct] at h
  rcases Bool.or_eq_true_iff.mp h with h1 | h1
  · rcases Bool.or_eq_true_iff.mp h1 with h2 | h2 <;>
      (rw [decide_eq_true_eq] at h2; subst h2; decide)
  · rw [decide_eq_true_eq] at h1; subst h1; decide

/-- The overlap seed of a buffer that ends in a boundary character plus a
space itself ends in that boundary character plus a space, whenever at
least the last two space-separated words are taken. -/
theorem seed_ends_punct {cur X : JStr} {d : Char} (hd : isPunct d)
    (hcur : cur = X ++ [d, ' ']) {ow : Nat} (how : 2 ≤ ow) :
    ∃ t, jsJoin ' ' (jsSliceLast ow (jsSplit ' ' cur)) = t ++ [d, ' '] := by
  have hXd : cur = (X ++ [d]) ++ [' '] := by rw [hcur]; simp
  rcases jsSplit_append_nonsep ' ' (punct_ne_space hd) X with ⟨ini, lastp, h1, h2⟩
  have hsp : jsSplit ' ' cur = ini ++ [lastp ++ [d], []] := by
    rw [hXd, jsSplit_append_sep, h2]
    simp
  have hslice : jsSliceLast ow (jsSplit ' ' cur) =
      ini.drop (ini.length + 2 - ow) ++ [lastp ++ [d], []] := by
    rw [jsSliceLast, if_neg (by omega), hsp]
    have hlen2 : (ini ++ [lastp ++ [d], []]).length = ini.length + 2 := by simp
    rw [hlen2, List.drop_append_of_le_length (by omega)]
  rcases jsJoin_concat_pair ' ' (ini.drop (ini.length + 2 - ow)) (lastp ++ [d])
    with ⟨t, ht⟩
  refine ⟨t ++ lastp, ?_⟩
  rw [hslice, ht]
  simp

/-- Invariant of the packing loop delivering the overlap-chain property:
the chunks emitted so far are chained by shared spans; the buffer (when
non-empty) ends in a boundary character plus space; and the trim of the
overlap seed of the last emitted chunk begins the (future trim of the)
current buffer. -/
def ChainInv (S : List JStr) (st : ChunkState) : Prop :=
  List.Chain' sharedSpan st.chunks ∧
  (st.cur = [] ∨ ∃ X d, isPunct d ∧ st.cur = X ++ [d, ' ']) ∧
  (st.chunks = [] ∨ ∃ sp lc, sp ≠ [] ∧ st.chunks.getLast? = some lc ∧ sp <:+ lc ∧
     sp <+: jsTrim st.cur ∧ st.cur ≠ [])

theorem chunkStep_chainInv {eff ow : Nat} {S : List JStr} {st : ChunkState} {s : JStr}
    (how : 2 ≤ ow) (hS : SentOk S) (hs : s ∈ S) (hInv : ChainInv S st) :
    ChainInv S (chunkStep eff ow st s) := by
  obtain ⟨hChain, hEnds, hLink⟩ := hInv
  obtain ⟨s0, d', hd', hs0⟩ := hS s hs
  have hdw' : ¬ jsWS d' := punct_not_ws hd'
  rw [chunkStep]
  by_cases hg : st.curLen + s.length > eff ∧ st.cur ≠ []
  · rw [if_pos hg]
    rcases hEnds.resolve_left hg.2 with ⟨X, d, hd, hX⟩
    have hdw : ¬ jsWS d := punct_not_ws hd
    rcases seed_ends_punct hd hX how with ⟨t, hseed⟩
    set seed0 := jsJoin ' ' (jsSliceLast ow (jsSplit ' ' st.cur)) with hseed0
    have hdmem : d ∈ seed0 := by rw [hseed]; simp
    have hspne : jsTrim seed0 ≠ [] := jsTrim_ne_nil_of_mem hdmem hdw
    have hsufc : jsTrim seed0 <:+ jsTrim st.cur :=
      jsTrim_sufx_mono (seed_sufx ow st.cur) hdmem hdw
    have hnewcur : (seed0 ++ [' ']) ++ s ++ [' '] = seed0 ++ ([' '] ++ (s ++ [' '])) := by
      simp
    have hdmem2 : d' ∈ [' '] ++ (s ++ [' ']) := by rw [hs0]; simp
    have hpre : jsTrim seed0 <+: jsTrim ((seed0 ++ [' ']) ++ s ++ [' ']) := by
      rw [hnewcur]
      exact jsTrim_pre_append hdmem hdw hdmem2 hdw'
    refine ⟨?_, ?_, ?_⟩
    · -- the new chunk is chained to the previous last chunk
      rcases hch : st.chunks with _ | ⟨c0, cr⟩
      · simpa using List.chain'_singleton (R := sharedSpan) (jsTrim st.cur)
      · rw [← hch]
        rcases hLink.resolve_left (by rw [hch]; simp) with
          ⟨sp, lc, hspne2, hlast, hsplc, hsptrim, hcne⟩
        refine List.chain'_append.mpr ⟨hChain, List.chain'_singleton _, ?_⟩
        intro x hx y hy
        simp only [List.head?_cons, Option.mem_some_iff] at hy
        rw [hlast] at hx
        simp only [Option.mem_some_iff] at hx
        subst hx; subst hy
        exact ⟨sp, hspne2, hsplc, hsptrim⟩
    · refine Or.inr ⟨(seed0 ++ [' ']) ++ s0, d', hd', ?_⟩
      rw [hs0]
      simp
    · refine Or.inr ⟨jsTrim seed0, jsTrim st.cur, hspne, ?_, hsufc, hpre, by simp⟩
      simp
  · rw [if_neg hg]
    refine ⟨hChain, ?_, ?_⟩
    · refine Or.inr ⟨st.cur ++ s0, d', hd', ?_⟩
      rw [hs0]
      simp
    · rcases hLink with hnil | ⟨sp, lc, hspne2, hlast, hsplc, hsptrim, hcne⟩
      · exact Or.inl hnil
      · rcases hEnds.resolve_left hcne with ⟨X, d, hd, hX⟩
        have hdmem : d ∈ st.cur := by rw [hX]; simp
        refine Or.inr ⟨sp, lc, hspne2, hlast, hsplc, ?_, by simp [hcne]⟩
        have : st.cur ++ s ++ [' '] = st.cur ++ (s ++ [' ']) := by simp
        rw [this]
        exact jsTrim_pre_stable hdmem (punct_not_ws hd) hsptrim

theorem chunkFold_chainInv {eff ow : Nat} {S : List JStr} (how : 2 ≤ ow)
    (hS : SentOk S) : ∀ (l : List JStr) (st : ChunkState), (∀ s ∈ l, s ∈ S) →
      ChainInv S st → ChainInv S (l.foldl (chunkStep eff ow) st) := by
  intro l
  induction l with
  | nil => intro st _ h; exact h
  | cons s t ih =>
    intro st hmem h
    rw [List.foldl_cons]
    exact ih _ (fun x hx => hmem x (List.mem_cons_of_mem s hx))
      (chunkStep_chainInv how hS (hmem s (List.mem_cons_self s t)) h)

theorem chainInv_init (S : List JStr) : ChainInv S ⟨[], [], 0⟩ :=
  ⟨List.chain'_nil, Or.inl rfl, Or.inl rfl⟩

/-- Overlap-chain property of the chunker output: when the configured
overlap is at least 20 (so that the seed takes at least two words), every
chunk after the first begins with a non-empty span that ends its
predecessor. -/
theorem splitTextIntoChunks_chain (text : JStr) (cs ov : Nat)
    (h : min cs 8000 < text.length) (how : 2 ≤ ov / 10) :
    List.Chain' sharedSpan (splitTextIntoChunks text cs ov) := by
  rw [splitTextIntoChunks, if_neg (by omega)]
  cases hsent : jsSentences text with
  | nil =>
    -- fallback single pseudo-sentence: the loop never pushes, so the result
    -- has at most one element
    have hcs : chunkSentences text = [text] := by rw [chunkSentences, hsent]
    rw [hcs]
    have hcur : (List.foldl (chunkStep (min cs 8000) (ov / 10))
        ⟨[], [], 0⟩ [text]).cur = text ++ [' '] := by
      simp only [List.foldl_cons, List.foldl_nil]
      rw [chunkStep, if_neg (by simp)]
      simp
    have hchk : (List.foldl (chunkStep (min cs 8000) (ov / 10))
        ⟨[], [], 0⟩ [text]).chunks = [] := by
      simp only [List.foldl_cons, List.foldl_nil]
      rw [chunkStep, if_neg (by simp)]
    simp only [hcur, hchk]
    rcases eq_or_ne (jsTrim (text ++ [' '])) [] with hnil | hnil
    · rw [if_pos hnil]; exact List.chain'_nil
    · rw [if_neg hnil]; simpa using List.chain'_singleton (R := sharedSpan) _
  | cons s1 rest =>
    have hcs : chunkSentences text = s1 :: rest := by rw [chunkSentences, hsent]
    have hSok : SentOk (chunkSentences text) := by
      intro s hs
      rw [hcs, ← hsent] at hs
      exact jsSentences_last_punct hs
    have hInv := @chunkFold_chainInv (min cs 8000) (ov / 10)
      (chunkSentences text) how hSok
      (chunkSentences text) ⟨[], [], 0⟩ (fun s hs => hs) (chainInv_init _)
    obtain ⟨hChain, hEnds, hLink⟩ := hInv
    set fin := (chunkSentences text).foldl (chunkStep (min cs 8000) (ov / 10)) ⟨[], [], 0⟩
    by_cases hnil : jsTrim fin.cur = []
    · rw [if_pos hnil]; exact hChain
    · rw [if_neg hnil]
      rcases hch : fin.chunks with _ | ⟨c0, cr⟩
      · simpa using List.chain'_singleton (R := sharedSpan) (jsTrim fin.cur)
      · rw [← hch]
        rcases hLink.resolve_left (by rw [hch]; simp) with
          ⟨sp, lc, hspne2, hlast, hsplc, hsptrim, hcne⟩
        refine List.chain'_append.mpr ⟨hChain, List.chain'_singleton _, ?_⟩
        intro x hx y hy
        simp only [List.head?_cons, Option.mem_some_iff] at hy
        rw [hlast] at hx
        simp only [Option.mem_some_iff] at hx
        subst hx; subst hy
        exact ⟨sp, hspne2, hsplc, hsptrim⟩

/-- Claim C1, amended: for a text longer than the effective bound
`C = min chunkSize 8000`, every emitted chunk either has length at most `C`
or is the trim of an overlap seed followed by a single sentence (the
sentence whose addition overflowed the bound — in particular a single
sentence longer than `C` is emitted as its own oversized chunk).  When the
configured overlap is at least 20 characters (seed of at least two words),
every chunk after the first begins with a non-empty span that its
predecessor ends with.  Non-final chunks may also be shorter than `C`. -/
theorem splitTextIntoChunks_bound_and_overlap (text : JStr) (cs ov : Nat)
    (h : min cs 8000 < text.length) :
    (∀ c ∈ splitTextIntoChunks text cs ov,
        c.length ≤ min cs 8000 ∨
          ∃ w s, s ∈ chunkSentences text ∧ c = jsTrim (w ++ (s ++ [' ']))) ∧
      (2 ≤ ov / 10 → List.Chain' sharedSpan (splitTextIntoChunks text cs ov)) :=
  ⟨splitTextIntoChunks_length_char text cs ov h,
    fun how => splitTextIntoChunks_chain text cs ov h how⟩

/-- Witness for `splitTextIntoChunks_bound_and_overlap` at a concrete
input. -/
theorem splitTextIntoChunks_bound_and_overlap_witness :
    min 5 8000 < ("ab.cdefgh.".data : JStr).length ∧
      ((∀ c ∈ splitTextIntoChunks ("ab.cdefgh.".data) 5 200,
          c.length ≤ min 5 8000 ∨
            ∃ w s, s ∈ chunkSentences ("ab.cdefgh.".data) ∧
              c = jsTrim (w ++ (s ++ [' ']))) ∧
        (2 ≤ 200 / 10 →
          List.Chain' sharedSpan (splitTextIntoChunks ("ab.cdefgh.".data) 5 200))) :=
  ⟨by decide, splitTextIntoChunks_bound_and_overlap ("ab.cdefgh.".data) 5 200 (by decide)⟩

/-- Counterexample to claim C1 as stated: for the ten-character text
consisting of the two sentences `ab.` and `cdefgh.`, requested chunk size 5
(effective bound 5) and overlap 200, the chunker emits a second chunk of
length 12 > 5 (overlap seed plus oversized sentence), and the first —
non-final — chunk has length 3 < 5. -/
theorem splitTextIntoChunks_bound_counterexample :
    min 5 8000 < ("ab.cdefgh.".data : JStr).length ∧
      splitTextIntoChunks ("ab.cdefgh.".data) 5 200 = ["ab.".data, "ab.  cdefgh.".data] ∧
      ¬ (∀ c ∈ splitTextIntoChunks ("ab.cdefgh.".data) 5 200, c.length ≤ min 5 8000) := by
  decide

/-! ### Claim C4: the short-text fast path -/

/-- Claim C4, amended: a text whose length is at most the effective bound is
returned as exactly one chunk equal to the input text itself — untrimmed
(src/services/openai.service.ts lines 141-144 return `[text]`, not
`[text.trim()]`). -/
theorem splitTextIntoChunks_short (text : JStr) (cs ov : Nat)
    (h : text.length ≤ min cs 8000) :
    splitTextIntoChunks text cs ov = [text] := by
  rw [splitTextIntoChunks, if_pos h]

/-- Witness for `splitTextIntoChunks_short` at a concrete input. -/
theorem splitTextIntoChunks_short_witness :
    ("a ".data : JStr).length ≤ min 8000 8000 ∧
      splitTextIntoChunks ("a ".data) 8000 200 = ["a ".data] :=
  ⟨by decide, splitTextIntoChunks_short ("a ".data) 8000 200 (by decide)⟩

/-- Counterexample to claim C4 as stated: for the two-character input
consisting of a letter and a trailing space, the single returned chunk is
the untrimmed input, not the trimmed input. -/
theorem splitTextIntoChunks_short_not_trimmed :
    splitTextIntoChunks ("a ".data) 8000 200 ≠ [jsTrim ("a ".data)] := by
  decide

/-! ### Claim C9: non-emptiness of the chunk list -/

/-- Claim C9, amended: the chunk list is non-empty for every input text that
is short enough for the fast path or does not trim to the empty string.
(A text longer than the effective bound consisting only of whitespace
produces the empty list, see the counterexample.) -/
theorem splitTextIntoChunks_ne_nil (text : JStr) (cs ov : Nat)
    (h : text.length ≤ min cs 8000 ∨ jsTrim text ≠ []) :
    splitTextIntoChunks text cs ov ≠ [] := by
  rw [splitTextIntoChunks]
  by_cases hlen : text.length ≤ min cs 8000
  · rw [if_pos hlen]; simp
  · rw [if_neg hlen]
    have htrim : jsTrim text ≠ [] := h.resolve_left hlen
    -- the text contains a non-whitespace character
    have hchar : ∃ c ∈ text, ¬ jsWS c := by
      by_contra hall
      push_neg at hall
      have : jsTrimL text = [] := by
        rw [jsTrimL, List.dropWhile_eq_nil_iff]
        intro x hx; exact hall x hx
      exact htrim (by rw [jsTrim, this]; rfl)
    rcases hchar with ⟨c, hc, hcws⟩
    cases hsent : jsSentences text with
    | nil =>
      -- fallback: the single pseudo-sentence is the whole text
      have hcs : chunkSentences text = [text] := by rw [chunkSentences, hsent]
      simp only [hcs]
      have hcur : (List.foldl (chunkStep (min cs 8000) (ov / 10))
          ⟨[], [], 0⟩ [text]).cur = text ++ [' '] := by
        simp only [List.foldl_cons, List.foldl_nil]
        rw [chunkStep]
        rw [if_neg (by simp)]
        simp
      rw [hcur]
      rw [if_neg (jsTrim_ne_nil_of_mem (by simp [hc]) hcws)]
      simp
    | cons s rest =>
      have hcs : chunkSentences text = s :: rest := by rw [chunkSentences, hsent]
      simp only [hcs]
      -- the sentence list is non-empty; its last sentence ends with
      -- a boundary character, which survives trimming
      rcases List.eq_nil_or_concat (s :: rest) with hcon | ⟨l2, slast, hcon⟩
      · exact absurd hcon (by simp)
      rw [List.concat_eq_append] at hcon
      rw [hcon]
      rcases chunkFold_last (min cs 8000) (ov / 10) ⟨[], [], 0⟩ l2 slast with ⟨pre, hpre⟩
      have hlastmem : slast ∈ jsSentences text := by
        rw [hsent, hcon]; simp
      rcases jsSentences_mem_punct hlastmem with ⟨d, hd, hdp⟩
      have : jsTrim ((List.foldl (chunkStep (min cs 8000) (ov / 10))
          ⟨[], [], 0⟩ (l2 ++ [slast])).cur) ≠ [] := by
        rw [hpre]
        exact jsTrim_ne_nil_of_mem (by simp [hd]) (punct_not_ws hdp)
      rw [if_neg this]
      simp

/-- Witness for `splitTextIntoChunks_ne_nil` at a concrete input. -/
theorem splitTextIntoChunks_ne_nil_witness :
    (("hi. there.".data : JStr).length ≤ min 4 8000 ∨ jsTrim ("hi. there.".data) ≠ []) ∧
      splitTextIntoChunks ("hi. there.".data) 4 200 ≠ [] :=
  ⟨Or.inr (by decide), splitTextIntoChunks_ne_nil ("hi. there.".data) 4 200 (Or.inr (by decide))⟩

/-- Counterexample to claim C9 as stated: a six-space input with requested
chunk size 5 (effective bound 5) yields the empty chunk list — the single
unmatched pseudo-sentence is all whitespace, so the final blank buffer is
never emitted. -/
theorem splitTextIntoChunks_empty_on_blank :
    splitTextIntoChunks ("      ".data) 5 200 = [] := by
  decide

/-! ### Decimal rendering of numbers (JavaScript template interpolation) -/

/-- Fuel-indexed worker for `natToDec`; the fuel never runs out when it
starts above the number (see `natToDecF_congr`). -/
def natToDecF : Nat → Nat → JStr
  | 0, _ => []
  | fuel + 1, n =>
    if n < 10 then [Nat.digitChar n]
    else natToDecF fuel (n / 10) ++ [Nat.digitChar (n % 10)]

/-- Decimal rendering of a natural number, modelling JavaScript template
interpolation of a non-negative integer. -/
def natToDec (n : Nat) : JStr := natToDecF (n + 1) n

theorem natToDecF_congr (f1 : Nat) : ∀ (f2 n : Nat), n < f1 → n < f2 →
    natToDecF f1 n = natToDecF f2 n := by
  induction f1 with
  | zero => intro f2 n h1 h2; omega
  | succ f1 ih =>
    intro f2 n h1 h2
    cases f2 with
    | zero => omega
    | succ k =>
      rw [natToDecF, natToDecF]
      by_cases hn : n < 10
      · rw [if_pos hn, if_pos hn]
      · rw [if_neg hn, if_neg hn]
        have hd : n / 10 < n := Nat.div_lt_self (by omega) (by omega)
        rw [ih k (n / 10) (by omega) (by omega)]

theorem natToDec_eq (n : Nat) :
    natToDec n = if n < 10 then [Nat.digitChar n]
      else natToDec (n / 10) ++ [Nat.digitChar (n % 10)] := by
  rw [natToDec, natToDecF]
  by_cases hn : n < 10
  · rw [if_pos hn, if_pos hn]
  · rw [if_neg hn, if_neg hn, natToDec]
    have hd : n / 10 < n := Nat.div_lt_self (by omega) (by omega)
    rw [natToDecF_congr n (n / 10 + 1) (n / 10) (by omega) (by omega)]

/-- Decoder recovering the number from its decimal rendering; used to show
`natToDec` is injective. -/
def decVal (l : JStr) : Nat := l.foldl (fun a c => 10 * a + (c.toNat - 48)) 0

theorem decVal_append (l : JStr) (d : Char) :
    decVal (l ++ [d]) = 10 * decVal l + (d.toNat - 48) := by
  rw [decVal, List.foldl_append, List.foldl_cons, List.foldl_nil, decVal]

theorem digitChar_toNat {k : Nat} (h : k < 10) : (Nat.digitChar k).toNat - 48 = k := by
  interval_cases k <;> decide

theorem decVal_natToDec (n : Nat) : decVal (natToDec n) = n := by
  induction n using Nat.strong_induction_on with
  | _ n ih =>
    rw [natToDec_eq]
    by_cases hn : n < 10
    · rw [if_pos hn, decVal, List.foldl_cons, List.foldl_nil]
      simp [digitChar_toNat hn]
    · rw [if_neg hn, decVal_append]
      have hd : n / 10 < n := Nat.div_lt_self (by omega) (by omega)
      rw [ih (n / 10) hd, digitChar_toNat (Nat.mod_lt n (by omega))]
      omega

theorem natToDec_injective : Function.Injective natToDec := by
  intro a b hab
  have ha := decVal_natToDec a
  have hb := decVal_natToDec b
  rw [← ha, ← hb, hab]

/-! ### Node path helpers and the video segmenter (claim C5) -/

/-- Model of Node `path.basename` (posix, no trailing slash): the part of
the path after the last separator. -/
def pathBasename (p : JStr) : JStr := (jsSplit '/' p).getLastD []

/-- Model of Node `path.dirname` (posix, no trailing slash). -/
def pathDirname (p : JStr) : JStr :=
  let parts := jsSplit '/' p
  if parts.length ≤ 1 then ['.']
  else
    let d := jsJoin '/' parts.dropLast
    if d = [] then ['/'] else d

/-- Model of Node `path.extname`: the suffix of the basename from its last
dot, empty when there is no dot or the only dot leads the basename. -/
def pathExtname (p : JStr) : JStr :=
  let b := pathBasename p
  let tail := b.reverse.takeWhile (fun c => c ≠ '.')
  if tail.length = b.length then []
  else if tail.length + 1 = b.length then []
  else '.' :: tail.reverse

/-- Model of Node `path.basename(p, ext)`: the basename with the given
extension removed when it is a proper suffix. -/
def pathBasenameExt (p ext : JStr) : JStr :=
  let b := pathBasename p
  if ext ≠ [] ∧ ext.isSuffixOf b ∧ b ≠ ext then b.take (b.length - ext.length) else b

/-- Model of Node `path.join(dir, name)` for the shapes produced here. -/
def pathJoin (dir name : JStr) : JStr :=
  if dir = ['.'] then name
  else if dir = ['/'] then '/' :: name
  else dir ++ '/' :: name

/-- One ffmpeg segment cut of `MediaProcessingService.segmentVideo`
(src/services/media-processing.service.ts lines 70-84): output path,
start offset (`-ss`) and declared duration (`-t`). -/
structure SegCmd where
  path : JStr
  start : ℚ
  dur : ℚ
deriving Repr, DecidableEq

/-- Output path of the `i`-th (zero-based) segment:
`baseDir/baseName_segment_{i+1}{extension}`
(src/services/media-processing.service.ts lines 72-75). -/
def segmentPath (videoPath : JStr) (i : Nat) : JStr :=
  let extension := pathExtname videoPath
  let baseName := pathBasenameExt videoPath extension
  pathJoin (pathDirname videoPath)
    (baseName ++ ("_segment_".data) ++ natToDec (i + 1) ++ extension)

/-- The ffmpeg cuts issued by `MediaProcessingService.segmentVideo`
(src/services/media-processing.service.ts lines 62-84) for a probed
duration: `numSegments = Math.ceil(duration / (minutes*60))` cuts, the
`i`-th starting at `i*(minutes*60)` with declared duration `minutes*60`. -/
def segmentCmds (videoPath : JStr) (minutes : Nat) (duration : ℚ) : List SegCmd :=
  let segSecs : ℚ := (minutes : ℚ) * 60
  let n : Nat := (⌈duration / segSecs⌉).toNat
  (List.range n).map fun i =>
    { path := segmentPath videoPath i, start := (i : ℚ) * segSecs, dur := segSecs }

/-- Claim C5: for a video of duration `D` seconds segmented with a window
of `W` minutes, the segmenter issues exactly `⌈D / (W*60)⌉` cuts; the
`i`-th cut starts at `i*(W*60)` with declared duration `W*60`; and the
total duration is at most `count * (W*60)`, so the material left for the
final cut is at most `W*60` while every earlier cut spans exactly `W*60`. -/
theorem segmentCmds_spec (videoPath : JStr) (minutes : Nat) (duration : ℚ)
    (hD : 0 ≤ duration) (hW : 0 < minutes) :
    (segmentCmds videoPath minutes duration).length = ⌈duration / ((minutes : ℚ) * 60)⌉₊ ∧
      (∀ i (h : i < (segmentCmds videoPath minutes duration).length),
        ((segmentCmds videoPath minutes duration).get ⟨i, h⟩).start
            = (i : ℚ) * ((minutes : ℚ) * 60) ∧
          ((segmentCmds videoPath minutes duration).get ⟨i, h⟩).dur
            = (minutes : ℚ) * 60) ∧
      duration ≤ (⌈duration / ((minutes : ℚ) * 60)⌉₊ : ℚ) * ((minutes : ℚ) * 60) := by
  have hpos : (0 : ℚ) < (minutes : ℚ) * 60 := by positivity
  refine ⟨?_, ?_, ?_⟩
  · rw [segmentCmds]
    simp [Int.ceil_toNat]
  · intro i h
    constructor <;> simp [segmentCmds]
  · have h1 : duration / ((minutes : ℚ) * 60) ≤ (⌈duration / ((minutes : ℚ) * 60)⌉₊ : ℚ) :=
      Nat.le_ceil _
    calc duration = duration / ((minutes : ℚ) * 60) * ((minutes : ℚ) * 60) := by
          field_simp
      _ ≤ (⌈duration / ((minutes : ℚ) * 60)⌉₊ : ℚ) * ((minutes : ℚ) * 60) := by
          exact mul_le_mul_of_nonneg_right h1 (le_of_lt hpos)

/-- Witness for `segmentCmds_spec` at the spec's own example: 1800 seconds,
10-minute window, giving exactly three 600-second cuts. -/
theorem segmentCmds_spec_witness :
    (0 : ℚ) ≤ 1800 ∧ 0 < 10 ∧
      (segmentCmds ("/tmp/uploads/v.mp4".data) 10 1800).length
          = ⌈(1800 : ℚ) / ((10 : ℚ) * 60)⌉₊ ∧
      (segmentCmds ("/tmp/uploads/v.mp4".data) 10 1800).length = 3 :=
  ⟨by norm_num, by norm_num,
    (segmentCmds_spec ("/tmp/uploads/v.mp4".data) 10 1800 (by norm_num) (by norm_num)).1,
    by norm_num [segmentCmds]; rfl⟩

/-! ### Shopify CSV processor (claim C10) -/

/-- A parsed Shopify CSV record
(src/services/shopify-csv-processor.service.ts lines 5-31).  `Handle` and
`Title` are plain string columns; the remaining columns are optional
(`none` models an absent column, the empty string an empty cell). -/
structure ShopifyProduct where
  handle : JStr
  title : JStr
  bodyHtml : Option JStr := none
  ptype : Option JStr := none
  tags : Option JStr := none
  status : Option JStr := none
  published : Option JStr := none
  url : Option JStr := none
  customCollections : Option JStr := none
  smartCollections : Option JStr := none
  imageSrc : Option JStr := none
  imageAltText : Option JStr := none
  option1Name : Option JStr := none
  variantImage : Option JStr := none
  variantPrice : Option JStr := none
  metaTitleTag : Option JStr := none
  metaDescriptionTag : Option JStr := none
  metaHowToUse : Option JStr := none
  metaIngredients : Option JStr := none
  metaEssencesPictures : Option JStr := none
  metaEssencesNames : Option JStr := none
  metaEssencesDescriptors : Option JStr := none
  metaSummaryBlurb : Option JStr := none
  metaSmellsLike : Option JStr := none
  metaJudgemeWidget : Option JStr := none
deriving Repr, DecidableEq

/-- JavaScript truthiness of an optional string column: present and
non-empty. -/
def optTruthy (o : Option JStr) : Bool :=
  match o with
  | some t => decide (t ≠ [])
  | none => false

/-- Model of JavaScript `toLowerCase` (ASCII letters suffice here). -/
def jsLower (l : JStr) : JStr := l.map Char.toLower

/-- Fuel-indexed model of `.replace(/<[^>]*>/g, ' ')`: every complete tag
becomes one space; an unterminated `<` run is kept verbatim. -/
def stripTagsF : Nat → JStr → JStr
  | 0, l => l
  | fuel + 1, l =>
    match l with
    | [] => []
    | c :: t =>
      if c = '<' ∧ t.any (fun x => x = '>') then
        ' ' :: stripTagsF fuel ((t.dropWhile (fun x => x ≠ '>')).drop 1)
      else c :: stripTagsF fuel t

/-- Model of `.replace(/<[^>]*>/g, ' ')` on the body HTML. -/
def stripTags (l : JStr) : JStr := stripTagsF l.length l

/-- Model of `.replace(/\s+/g, ' ')`: collapse whitespace runs to single
spaces; the flag records whether the previous character was whitespace. -/
def collapseWSGo : Bool → JStr → JStr
  | _, [] => []
  | prev, c :: t =>
    if jsWS c then
      if prev then collapseWSGo true t else ' ' :: collapseWSGo true t
    else c :: collapseWSGo false t

/-- The cleaned product description
(src/services/shopify-csv-processor.service.ts lines 139-142). -/
def cleanBodyHtml (body : JStr) : JStr :=
  jsTrim (collapseWSGo false (stripTags body))

/-- Numeric value of a digit string. -/
def digitsVal (l : JStr) : Nat := l.foldl (fun a c => 10 * a + (c.toNat - 48)) 0

/-- Model of JavaScript `parseFloat` restricted to strings of digits and
dots (the shape produced by the price cleaning regex); `none` models
`NaN`. -/
def jsParseFloat (l : JStr) : Option ℚ :=
  let d1 := l.takeWhile Char.isDigit
  let r := l.dropWhile Char.isDigit
  match r with
  | '.' :: r2 =>
    let d2 := r2.takeWhile Char.isDigit
    if d1 = [] ∧ d2 = [] then none
    else some ((digitsVal d1 : ℚ) + (digitsVal d2 : ℚ) / (10 : ℚ) ^ d2.length)
  | _ => if d1 = [] then none else some ((digitsVal d1 : ℚ))

/-- Parsed price of one record: strip every character that is not a digit
or a dot, then `parseFloat`
(src/services/shopify-csv-processor.service.ts line 63). -/
def recordPrice (p : ShopifyProduct) : Option ℚ :=
  match p.variantPrice with
  | some vp => jsParseFloat (vp.filter (fun c => c.isDigit || c = '.'))
  | none => none

/-- Lookup in the handle-to-price association list. -/
def priceGet (m : List (JStr × ℚ)) (k : JStr) : Option ℚ :=
  (m.find? (fun kv => decide (kv.1 = k))).map (fun kv => kv.2)

/-- Update of the handle-to-price association list (JavaScript object
assignment). -/
def priceSet (m : List (JStr × ℚ)) (k : JStr) (v : ℚ) : List (JStr × ℚ) :=
  if (m.find? (fun kv => decide (kv.1 = k))).isSome then
    m.map (fun kv => if kv.1 = k then (k, v) else kv)
  else m ++ [(k, v)]

/-- The first-non-falsy-price-per-handle map
(src/services/shopify-csv-processor.service.ts lines 60-68); note that the
guard `!handleToPrice[product.Handle]` also treats a stored `0` as absent. -/
def buildPriceMap (records : List ShopifyProduct) : List (JStr × ℚ) :=
  records.foldl
    (fun m p =>
      if (priceGet m p.handle = none ∨ priceGet m p.handle = some 0) ∧
          optTruthy p.variantPrice then
        match recordPrice p with
        | some q => priceSet m p.handle q
        | none => m
      else m)
    []

/-- Natural-language rendering of one product,
`formatProductAsNaturalLanguage`
(src/services/shopify-csv-processor.service.ts lines 126-206). -/
def formatProduct (p : ShopifyProduct) : JStr :=
  let parts : List JStr :=
    [("Product: ".data) ++ p.title] ++
    (if optTruthy p.ptype then [("Category: ".data) ++ p.ptype.getD []] else []) ++
    (if optTruthy p.bodyHtml then
      [("Description: ".data) ++ cleanBodyHtml (p.bodyHtml.getD [])] else []) ++
    (if optTruthy p.variantPrice then
      [("Price: $".data) ++ p.variantPrice.getD []] else []) ++
    (if optTruthy p.tags then [("Tags: ".data) ++ p.tags.getD []] else []) ++
    (if optTruthy p.metaHowToUse then
      [("How to Use: ".data) ++ p.metaHowToUse.getD []] else []) ++
    (if optTruthy p.metaIngredients then
      [("Ingredients: ".data) ++ p.metaIngredients.getD []] else []) ++
    (if optTruthy p.metaSummaryBlurb then
      [("Summary: ".data) ++ p.metaSummaryBlurb.getD []] else []) ++
    (if optTruthy p.metaSmellsLike then
      [("Smells Like: ".data) ++ p.metaSmellsLike.getD []] else []) ++
    (if optTruthy p.metaEssencesNames then
      [("Essences: ".data) ++ p.metaEssencesNames.getD []] else []) ++
    (if optTruthy p.metaEssencesDescriptors then
      [("Essence Descriptions: ".data) ++ p.metaEssencesDescriptors.getD []] else []) ++
    (if optTruthy p.metaTitleTag then
      [("SEO Title: ".data) ++ p.metaTitleTag.getD []] else []) ++
    (if optTruthy p.metaDescriptionTag then
      [("SEO Description: ".data) ++ p.metaDescriptionTag.getD []] else []) ++
    (if optTruthy p.url then [("Product URL: ".data) ++ p.url.getD []] else []) ++
    (if optTruthy p.customCollections then
      [("Custom Collections: ".data) ++ p.customCollections.getD []] else []) ++
    (if optTruthy p.smartCollections then
      [("Smart Collections: ".data) ++ p.smartCollections.getD []] else [])
  jsJoin '\n' parts

/-- The record is skipped when its status is present, non-empty and not
`active` (case-insensitively)
(src/services/shopify-csv-processor.service.ts lines 72-75). -/
def statusSkip (p : ShopifyProduct) : Bool :=
  optTruthy p.status && decide (jsLower (p.status.getD []) ≠ ("active".data))

/-- The record is skipped when its title is absent or blank
(src/services/shopify-csv-processor.service.ts lines 78-81). -/
def titleSkip (p : ShopifyProduct) : Bool :=
  decide (p.title = []) || decide (jsTrim p.title = [])

/-- A record produces a document exactly when neither skip applies. -/
def keepRecord (p : ShopifyProduct) : Bool := !statusSkip p && !titleSkip p

/-- The document built from one kept Shopify record
(src/services/shopify-csv-processor.service.ts lines 90-112); `idPart` is
`product.Handle || uuidv4()`. -/
structure ShopDoc where
  id : JStr
  filename : JStr
  content : JStr
  productHandle : JStr
  productTitle : JStr
  vendor : JStr
  ptype : Option JStr
  tags : Option (List JStr)
  price : Option ℚ
  sku : JStr
  inStock : Bool
  url : Option JStr
  priorityScore : Nat
deriving Repr, DecidableEq

def mkShopDoc (filename : JStr) (p : ShopifyProduct) (idPart : JStr)
    (price : Option ℚ) : ShopDoc :=
  { id := ("shopify-".data) ++ idPart
    filename := filename
    content := formatProduct p
    productHandle := p.handle
    productTitle := p.title
    vendor := "Lotus Wei".data
    ptype := p.ptype
    tags := p.tags.map (fun t =>
      ((jsSplit ',' t).map jsTrim).filter (fun x => decide (0 < x.length)))
    price := price
    sku := p.handle
    inStock := true
    url := p.url
    priorityScore := 100 }

/-- The record loop of `processShopifyCsv`
(src/services/shopify-csv-processor.service.ts lines 70-116), with the
`uuidv4()` draws supplied as a stream consumed only when a kept record has
an empty handle (JavaScript `||` evaluates `uuidv4()` lazily). -/
def shopifyGo (uuid : Nat → JStr) (filename : JStr) (pm : List (JStr × ℚ)) :
    List ShopifyProduct → Nat → List ShopDoc
  | [], _ => []
  | p :: rest, k =>
    if keepRecord p then
      if p.handle = [] then
        mkShopDoc filename p (uuid k) (priceGet pm p.handle) ::
          shopifyGo uuid filename pm rest (k + 1)
      else
        mkShopDoc filename p p.handle (priceGet pm p.handle) ::
          shopifyGo uuid filename pm rest k
    else shopifyGo uuid filename pm rest k

/-- Model of `ShopifyCsvProcessorService.processShopifyCsv` from the parsed
records onward (CSV parsing itself is the external `csv-parse` library). -/
def processShopifyRecords (uuid : Nat → JStr) (records : List ShopifyProduct)
    (filename : JStr) : List ShopDoc :=
  shopifyGo uuid filename (buildPriceMap records) records 0

theorem shopifyGo_spec (uuid : Nat → JStr) (filename : JStr) (pm : List (JStr × ℚ)) :
    ∀ (rs : List ShopifyProduct) (k : Nat),
      (shopifyGo uuid filename pm rs k).map (fun d => d.productHandle)
          = (rs.filter keepRecord).map (fun p => p.handle) ∧
        ∀ d ∈ shopifyGo uuid filename pm rs k,
          (d.productHandle ≠ [] ∧ d.id = ("shopify-".data) ++ d.productHandle) ∨
            (d.productHandle = [] ∧ ∃ j, d.id = ("shopify-".data) ++ uuid j) := by
  intro rs
  induction rs with
  | nil =>
    intro k
    exact ⟨rfl, fun d hd => absurd hd (List.not_mem_nil d)⟩
  | cons p rest ih =>
    intro k
    rw [shopifyGo]
    by_cases hk : keepRecord p = true
    · rw [if_pos hk]
      by_cases hh : p.handle = []
      · rw [if_pos hh]
        refine ⟨?_, ?_⟩
        · rw [List.map_cons, (ih (k + 1)).1, List.filter_cons_of_pos hk, List.map_cons]
          rfl
        · intro d hd
          rcases List.mem_cons.mp hd with hd1 | hd1
          · subst hd1
            exact Or.inr ⟨hh, k, rfl⟩
          · exact (ih (k + 1)).2 d hd1
      · rw [if_neg hh]
        refine ⟨?_, ?_⟩
        · rw [List.map_cons, (ih k).1, List.filter_cons_of_pos hk, List.map_cons]
          rfl
        · intro d hd
          rcases List.mem_cons.mp hd with hd1 | hd1
          · subst hd1
            exact Or.inl ⟨hh, rfl⟩
          · exact (ih k).2 d hd1
    · rw [if_neg hk]
      rw [List.filter_cons_of_neg (by simpa using hk)]
      exact ih k

/-- Claim C10, amended: a parsed record produces a document exactly when
its status is absent, empty or `active` case-insensitively AND its title
is present and non-blank; the documents list the kept records' handles in
order, and every document id is `shopify-` followed by the record's handle
when the handle is non-empty (a fresh uuid otherwise). -/
theorem processShopifyRecords_spec (uuid : Nat → JStr)
    (records : List ShopifyProduct) (filename : JStr) :
    (processShopifyRecords uuid records filename).map (fun d => d.productHandle)
        = (records.filter keepRecord).map (fun p => p.handle) ∧
      ∀ d ∈ processShopifyRecords uuid records filename,
        (d.productHandle ≠ [] ∧ d.id = ("shopify-".data) ++ d.productHandle) ∨
          (d.productHandle = [] ∧ ∃ j, d.id = ("shopify-".data) ++ uuid j) :=
  shopifyGo_spec uuid filename (buildPriceMap records) records 0

/-- A record whose status is `active` but whose title is blank. -/
def blankTitleRecord : ShopifyProduct :=
  { handle := "h1".data, title := [], status := some ("active".data) }

/-- Counterexample to claim C10 as stated: a record with status `active`
and an empty title is skipped, although the claimed status-only condition
says it should produce a document. -/
theorem processShopifyRecords_counterexample :
    blankTitleRecord.status = some ("active".data) ∧
      processShopifyRecords (fun _ => "u".data) [blankTitleRecord]
        ("x-shopify.csv".data) = [] := by
  constructor
  · rfl
  · rfl

/-! ### The document-processing pipeline (claims C2, C3, C6, C7, C8)

`DocumentProcessingService.processFile` is modelled as a pure function over
an oracle environment `Env` supplying the outcome of every external effect
(file system, ffmpeg, OpenAI, Pinecone, uuid generation); it returns the
result together with the trace of observable events in execution order. -/

/-- Error values are the JavaScript `Error.message` strings. -/
abbrev Err := JStr

/-- An embedding vector as returned by the provider. -/
abbrev Emb := List ℚ

/-- Observable events of one `processFile` run, in execution order. -/
inductive Ev where
  | save (p : JStr)
  | register (p : JStr)
  | createSeg (p : JStr)
  | createAudio (p : JStr)
  | callTranscribe (p : JStr)
  | callEmbed (t : JStr)
  | callEmbedBatch (ts : List JStr)
  | callUpsert (id : JStr)
  | unlink (p : JStr) (ok : Bool)
deriving Repr, DecidableEq

/-- Remote calls: transcription, embedding, vector-store writes. -/
def isRemoteEv : Ev → Bool
  | .callTranscribe _ => true
  | .callEmbed _ => true
  | .callEmbedBatch _ => true
  | .callUpsert _ => true
  | _ => false

/-- Oracle environment: the outcome of every external effect of one run. -/
structure Env where
  parseCsv : JStr → Except Err (List ShopifyProduct)
  uuid : Nat → JStr
  now : Nat
  saveOk : Except Err Unit
  fileSize : JStr → Nat
  duration : JStr → ℚ
  segExec : JStr → Except Err Unit
  extractExec : JStr → Except Err Unit
  transcribe : JStr → Except Err JStr
  embedOne : JStr → Except Err Emb
  embedBatch : List JStr → Except Err (List Emb)
  upsert : JStr → Except Err Unit
  unlinkOk : JStr → Bool
  pdfExtract : JStr → Except Err JStr
  maxFileSize : Nat

/-- `config.upload.allowedTextFormats` (src/lib/config.ts). -/
def allowedTextFormats : List JStr :=
  ["txt", "md", "pdf", "doc", "docx", "csv", "json"].map (fun s => s.data)

/-- Audio extensions of `MediaProcessingService.isAudioFile`
(src/services/media-processing.service.ts line 162). -/
def audioExtensions : List JStr :=
  ["mp3", "wav", "m4a", "ogg", "flac", "aac", "wma"].map (fun s => s.data)

/-- Video extensions of `MediaProcessingService.isVideoFile`
(src/services/media-processing.service.ts line 156). -/
def videoExtensions : List JStr :=
  ["mp4", "avi", "mov", "mkv", "webm", "flv", "wmv"].map (fun s => s.data)

/-- `filename.split('.').pop()?.toLowerCase()`. -/
def extOf (filename : JStr) : JStr := jsLower ((jsSplit '.' filename).getLastD [])

inductive FileType where
  | text
  | audio
  | video
deriving Repr, DecidableEq

def fileTypeStr : FileType → JStr
  | .text => "text".data
  | .audio => "audio".data
  | .video => "video".data

/-- `DocumentProcessingService.determineFileType`
(src/unnamed/part_004 lines 221-233). -/
def determineFileType (filename : JStr) : Except Err FileType :=
  if extOf filename ∈ allowedTextFormats then .ok .text
  else if extOf filename ∈ audioExtensions then .ok .audio
  else if extOf filename ∈ videoExtensions then .ok .video
  else .error (("Unsupported file type: ".data) ++ extOf filename)

/-- Model of JavaScript `String.prototype.includes`: contiguous substring
test. -/
def jsIncludes (needle : JStr) : JStr → Bool
  | [] => decide (needle = [])
  | c :: t => needle.isPrefixOf (c :: t) || jsIncludes needle t

/-- The Shopify-CSV dispatch test of `processFile`
(src/unnamed/part_004 line 30). -/
def isShopifyCsv (filename : JStr) : Bool :=
  jsIncludes ("shopify".data) (jsLower filename) && (".csv".data).isSuffixOf filename

/-- `MediaProcessingService.saveUploadedFile` output path:
`path.join(UPLOAD_DIR, Date.now() + '-' + filename)`
(src/services/media-processing.service.ts lines 167-174). -/
def uploadPath (env : Env) (filename : JStr) : JStr :=
  pathJoin ("/tmp/uploads".data) (natToDec env.now ++ ('-' :: filename))

/-- `videoPath.replace(/\.[^/.]+$/, '.mp3')`
(src/services/media-processing.service.ts line 23). -/
def mp3Path (p : JStr) : JStr :=
  let revp := p.reverse
  let tail := revp.takeWhile (fun c => !(c = '.' || c = '/'))
  let rest := revp.drop tail.length
  if tail ≠ [] ∧ rest.head? = some '.' then
    (rest.drop 1).reverse ++ (".mp3".data)
  else p

/-- `DocumentProcessingService.processAudioFile`
(src/unnamed/part_004 lines 361-378): transcribe, reject blank
transcripts, wrap every failure in a filename-bearing message. -/
def processAudioFileRun (env : Env) (audioPath name : JStr) :
    Except Err JStr × List Ev :=
  match env.transcribe audioPath with
  | .error _ =>
    (.error (("Failed to transcribe audio file: ".data) ++ name),
      [.callTranscribe audioPath])
  | .ok t =>
    if jsTrim t = [] then
      (.error (("Failed to transcribe audio file: ".data) ++ name),
        [.callTranscribe audioPath])
    else (.ok t, [.callTranscribe audioPath])

/-- Error message of `extractAudioFromVideo`
(src/services/media-processing.service.ts lines 38-49). -/
def extractErrMsg (e : Err) : Err :=
  if jsIncludes ("which ffmpeg".data) e then
    ("ffmpeg is not installed. Please install it using: sudo apt-get install ffmpeg (Ubuntu/Debian) or brew install ffmpeg (macOS)".data)
  else ("Failed to extract audio from video".data)

/-- `MediaProcessingService.extractAudioFromVideo`
(src/services/media-processing.service.ts lines 22-50). -/
def extractAudioRun (env : Env) (videoPath : JStr) : Except Err JStr × List Ev :=
  match env.extractExec videoPath with
  | .ok _ => (.ok (mp3Path videoPath), [.createAudio (mp3Path videoPath)])
  | .error e => (.error (extractErrMsg e), [])

/-- The segment-creation loop of `segmentVideo`: each successful ffmpeg cut
creates and records one segment; the first failure aborts. -/
def segRunGo (env : Env) : List SegCmd → Option Err × List JStr × List Ev
  | [] => (none, [], [])
  | cmd :: rest =>
    match env.segExec cmd.path with
    | .error e => (some e, [], [])
    | .ok _ =>
      let r := segRunGo env rest
      (r.1, cmd.path :: r.2.1, Ev.createSeg cmd.path :: r.2.2)

/-- Completion of `segmentVideo`: on success return the segment paths; on
failure delete every created segment (best effort) and report the wrapped
error. -/
def segFinish (env : Env) : Option Err × List JStr × List Ev →
    Except Err (List JStr) × List Ev
  | (none, paths, evs) => (.ok paths, evs)
  | (some _, paths, evs) =>
    (.error ("Failed to segment video".data),
      evs ++ paths.map (fun p => Ev.unlink p (env.unlinkOk p)))

/-- `MediaProcessingService.segmentVideo`
(src/services/media-processing.service.ts lines 52-93): on failure every
segment created so far is deleted (best effort) and the wrapped error is
thrown. -/
def segmentVideoRun (env : Env) (videoPath : JStr) (minutes : Nat) :
    Except Err (List JStr) × List Ev :=
  segFinish env (segRunGo env (segmentCmds videoPath minutes (env.duration videoPath)))

/-- The embedding-call truncation of `createEmbedding`/`createEmbeddings`
(src/services/openai.service.ts lines 22-25 and 50-57). -/
def truncate8000 (t : JStr) : JStr :=
  if 8000 < t.length then t.take 8000 ++ ("...".data) else t

/-- `OpenAIService.createEmbedding` (src/services/openai.service.ts
lines 19-45). -/
def createEmbeddingRun (env : Env) (t : JStr) : Except Err Emb × List Ev :=
  let tt := truncate8000 t
  match env.embedOne tt with
  | .ok v => (.ok v, [.callEmbed tt])
  | .error e =>
    (.error (if jsIncludes ("maximum context length".data) e then
        ("Text is too long for embedding. Please split into smaller chunks.".data)
      else ("Failed to create embedding".data)), [.callEmbed tt])

/-- `OpenAIService.createEmbeddings` (src/services/openai.service.ts
lines 47-73). -/
def createEmbeddingsRun (env : Env) (ts : List JStr) :
    Except Err (List Emb) × List Ev :=
  let tts := ts.map truncate8000
  match env.embedBatch tts with
  | .ok vs => (.ok vs, [.callEmbedBatch tts])
  | .error e =>
    (.error (if jsIncludes ("maximum context length".data) e then
        ("One or more texts are too long for embedding. Please use smaller chunks.".data)
      else ("Failed to create embeddings".data)), [.callEmbedBatch tts])

/-- Unlink attempts of `cleanupFiles` (src/services/media-processing.service.ts
lines 143-153): issued in list order, failures swallowed. -/
def cleanupEvs (env : Env) (files : List JStr) : List Ev :=
  files.map (fun p => Ev.unlink p (env.unlinkOk p))

/-- Multi-character join, for `segmentContents.join('\n\n')`. -/
def jsJoinS (sep : JStr) : List JStr → JStr
  | [] => []
  | [p] => p
  | p :: q :: r => p ++ sep ++ jsJoinS sep (q :: r)

/-- A processed document of the generic path
(src/unnamed/part_004 lines 151-162); impure timestamp fields are
omitted. -/
structure PDoc where
  id : JStr
  filename : JStr
  content : JStr
  source : JStr
  originalFormat : JStr
  processingSteps : List JStr
  duration : Option ℚ
deriving Repr, DecidableEq

/-- `filename.split('.').pop() || 'unknown'` (src/unnamed/part_004
line 157) — not lowercased. -/
def originalFormatOf (filename : JStr) : JStr :=
  let e := (jsSplit '.' filename).getLastD []
  if e = [] then ("unknown".data) else e

/-- The per-product embed-and-upsert loop of the Shopify branch
(src/unnamed/part_004 lines 40-46). -/
def shopifyEmbedGo (env : Env) : List ShopDoc → Option Err × List Ev
  | [] => (none, [])
  | d :: rest =>
    let r1 := createEmbeddingRun env d.content
    match r1.1 with
    | .error e => (some e, r1.2)
    | .ok _ =>
      match env.upsert d.id with
      | .error e => (some e, r1.2 ++ [.callUpsert d.id])
      | .ok _ =>
        let r := shopifyEmbedGo env rest
        (r.1, r1.2 ++ [.callUpsert d.id] ++ r.2)

/-- Number of `uuidv4()` draws consumed by the Shopify record loop (one per
kept record with an empty handle). -/
def uuidUsed (records : List ShopifyProduct) : Nat :=
  ((records.filter keepRecord).filter (fun p => decide (p.handle = []))).length

/-- The segment marker `[Segment i+1/n]` plus newline
(src/unnamed/part_004 line 119). -/
def segMarker (i n : Nat) : JStr :=
  ("[Segment ".data) ++ natToDec (i + 1) ++ ('/' :: natToDec n) ++ (']' :: ['\n'])

/-- The per-segment extract-register-transcribe loop of the video branch
(src/unnamed/part_004 lines 103-120): returns the error (if any), the
marked per-segment transcripts, the audio files registered for cleanup and
the event trace. -/
def segLoopGo (env : Env) (filename : JStr) (n : Nat) :
    List JStr → Nat → Option Err × List JStr × List JStr × List Ev
  | [], _ => (none, [], [], [])
  | seg :: rest, i =>
    let re := extractAudioRun env seg
    match re.1 with
    | .error e => (some e, [], [], re.2)
    | .ok audioPath =>
      let rt := processAudioFileRun env audioPath
        (filename ++ ("_segment_".data) ++ natToDec (i + 1))
      match rt.1 with
      | .error e =>
        (some e, [], [audioPath], re.2 ++ [.register audioPath] ++ rt.2)
      | .ok t =>
        let r := segLoopGo env filename n rest (i + 1)
        (r.1, (segMarker i n ++ t) :: r.2.1, audioPath :: r.2.2.1,
          re.2 ++ [.register audioPath] ++ rt.2 ++ r.2.2.2)

/-- The chunk-record id `documentId-chunk-k`
(src/unnamed/part_004 line 188). -/
def chunkId (docId : JStr) (k : Nat) : JStr :=
  docId ++ ("-chunk-".data) ++ natToDec k

/-- The inner store loop of one embedding batch
(src/unnamed/part_004 lines 184-197): upserts the batch's chunk records
under consecutive chunk indices. -/
def upsertBatchGo (env : Env) (docId : JStr) : List JStr → Nat → Option Err × List Ev
  | [], _ => (none, [])
  | _ :: rest, idx =>
    match env.upsert (chunkId docId idx) with
    | .error e => (some e, [.callUpsert (chunkId docId idx)])
    | .ok _ =>
      let r := upsertBatchGo env docId rest (idx + 1)
      (r.1, Ev.callUpsert (chunkId docId idx) :: r.2)

/-- Fuel-indexed model of the batched embed-and-store loop
(src/unnamed/part_004 lines 176-203): slices of five chunks, one batched
embedding call per slice, then the slice's upserts; the next slice starts
only after the previous one completed. -/
def storeBatchesF (env : Env) (docId : JStr) : Nat → List JStr → Nat → Option Err × List Ev
  | 0, _, _ => (none, [])
  | fuel + 1, chunks, i =>
    match chunks with
    | [] => (none, [])
    | _ :: _ =>
      let batch := chunks.take 5
      let r1 := createEmbeddingsRun env batch
      match r1.1 with
      | .error e => (some e, r1.2)
      | .ok _ =>
        let ru := upsertBatchGo env docId batch i
        match ru.1 with
        | some e => (some e, r1.2 ++ ru.2)
        | none =>
          let r := storeBatchesF env docId fuel (chunks.drop 5) (i + 5)
          (r.1, r1.2 ++ ru.2 ++ r.2)

/-- The batched embed-and-store loop (src/unnamed/part_004 lines 174-204),
taken when there is more than one chunk. -/
def storeBatches (env : Env) (docId : JStr) (chunks : List JStr) : Option Err × List Ev :=
  storeBatchesF env docId chunks.length chunks 0

/-- `DocumentProcessingService.processTextFile`
(src/unnamed/part_004 lines 235-359): pdf2json extraction for `.pdf`
(blank results rejected), utf-8 passthrough otherwise. -/
def processTextFileRun (env : Env) (buffer filename : JStr) : Except Err JStr :=
  if extOf filename = ("pdf".data) then
    match env.pdfExtract buffer with
    | .ok t =>
      if t = [] ∨ jsTrim t = [] then
        .error (("Failed to extract text from PDF: ".data) ++ filename)
      else .ok t
    | .error _ => .error (("Failed to extract text from PDF: ".data) ++ filename)
  else .ok buffer

/-- The `switch (fileType)` extraction stage of `processFile`
(src/unnamed/part_004 lines 72-140): produces the extracted content and
processing-step log, together with the additional temp files registered
(beyond the uploaded file) and the events of this stage. -/
def extractContent (env : Env) (buffer filename up : JStr) :
    FileType → Except Err (JStr × List JStr) × List JStr × List Ev
  | .text =>
    match processTextFileRun env buffer filename with
    | .error e => (.error e, [], [])
    | .ok content => (.ok (content, ["text_extraction".data]), [], [])
  | .audio =>
    let r := processAudioFileRun env up filename
    match r.1 with
    | .error e => (.error e, [], r.2)
    | .ok content => (.ok (content, ["audio_transcription".data]), [], r.2)
  | .video =>
    if env.fileSize up > env.maxFileSize then
      match segmentVideoRun env up 10 with
      | (.error e, evs) => (.error e, [], evs)
      | (.ok segs, evs) =>
        let r := segLoopGo env filename segs.length segs 0
        match r.1 with
        | some e =>
          (.error e, segs ++ r.2.2.1,
            evs ++ segs.map Ev.register ++ r.2.2.2)
        | none =>
          (.ok (jsJoinS ("\n\n".data) r.2.1,
              [("video_segmentation".data),
                ("processed_".data) ++ natToDec segs.length ++ ("_segments".data)]),
            segs ++ r.2.2.1,
            evs ++ segs.map Ev.register ++ r.2.2.2)
    else
      let re := extractAudioRun env up
      match re.1 with
      | .error e => (.error e, [], re.2)
      | .ok apath =>
        let rt := processAudioFileRun env apath filename
        match rt.1 with
        | .error e => (.error e, [apath], re.2 ++ [.register apath] ++ rt.2)
        | .ok content =>
          (.ok (content, [("video_to_audio".data), ("audio_transcription".data)]),
            [apath], re.2 ++ [.register apath] ++ rt.2)

/-- The single-chunk versus batched embed-and-store stage
(src/unnamed/part_004 lines 165-204).  With a single chunk the whole
content is embedded once and the document is upserted under its own id. -/
def embedAndStore (env : Env) (doc : PDoc) (chunks : List JStr) : Option Err × List Ev :=
  if chunks.length = 1 then
    let r1 := createEmbeddingRun env doc.content
    match r1.1 with
    | .error e => (some e, r1.2)
    | .ok _ =>
      match env.upsert doc.id with
      | .error e => (some e, r1.2 ++ [.callUpsert doc.id])
      | .ok _ => (none, r1.2 ++ [.callUpsert doc.id])
  else storeBatches env doc.id chunks

/-- The body of `processFile` inside its `try` block
(src/unnamed/part_004 lines 26-213): result, temp files registered for
cleanup (in registration order) and event trace. -/
def processFileAux (env : Env) (buffer filename : JStr) (ft : FileType) :
    Except Err PDoc × List JStr × List Ev :=
  if isShopifyCsv filename then
    match env.parseCsv buffer with
    | .error e =>
      (.error (("Failed to process Shopify CSV file: ".data) ++ e), [], [])
    | .ok records =>
      let docs := processShopifyRecords env.uuid records filename
      let r := shopifyEmbedGo env docs
      match r.1 with
      | some e => (.error e, [], r.2)
      | none =>
        (.ok { id := ("shopify-batch-".data) ++ env.uuid (uuidUsed records)
               filename := filename
               content := ("Processed ".data) ++ natToDec docs.length ++
                 (" Shopify products from CSV".data)
               source := "shopify".data
               originalFormat := "csv".data
               processingSteps := [("shopify_csv_import".data),
                 ("processed_".data) ++ natToDec docs.length ++ ("_products".data)]
               duration := none }, [], r.2)
  else
    match env.saveOk with
    | .error e => (.error e, [], [])
    | .ok _ =>
      let up := uploadPath env filename
      let rx := extractContent env buffer filename up ft
      let files := up :: rx.2.1
      let tr := Ev.save up :: Ev.register up :: rx.2.2
      match rx.1 with
      | .error e => (.error e, files, tr)
      | .ok (content, steps) =>
        let doc : PDoc :=
          { id := env.uuid 0
            filename := filename
            content := content
            source := fileTypeStr ft
            originalFormat := originalFormatOf filename
            processingSteps := steps
            duration := if ft = .text then none else some (env.duration up) }
        let chunks := splitTextIntoChunks content 8000 200
        let r := embedAndStore env doc chunks
        match r.1 with
        | some e => (.error e, files, tr ++ r.2)
        | none => (.ok doc, files, tr ++ r.2)

/-- `DocumentProcessingService.processFile`
(src/unnamed/part_004 lines 16-219): `determineFileType` runs before the
`try` block; both the success path and the `catch` handler finish by
deleting every registered temp file, in registration order, best effort. -/
def processFile (env : Env) (buffer filename : JStr) : Except Err PDoc × List Ev :=
  match determineFileType filename with
  | .error e => (.error e, [])
  | .ok ft =>
    let r := processFileAux env buffer filename ft
    (r.1, r.2.2 ++ cleanupEvs env r.2.1)

/-- A concrete oracle environment in which every external effect
succeeds; used to instantiate theorems at concrete inputs. -/
def sampleEnv : Env :=
  { parseCsv := fun _ => .ok []
    uuid := fun k => ("u".data) ++ natToDec k
    now := 7
    saveOk := .ok ()
    fileSize := fun _ => 0
    duration := fun _ => 0
    segExec := fun _ => .ok ()
    extractExec := fun _ => .ok ()
    transcribe := fun _ => .ok ("hello there".data)
    embedOne := fun _ => .ok [1]
    embedBatch := fun ts => .ok (ts.map (fun _ => [1]))
    upsert := fun _ => .ok ()
    unlinkOk := fun _ => true
    pdfExtract := fun b => .ok b
    maxFileSize := 104857600 }

/-! ### Claim C6: unsupported extensions fail before any effect -/

/-- Claim C6: a filename whose (lowercased last-dot-segment) extension is
in none of the three allow-lists makes `processFile` fail with the
unsupported-format error and an empty event trace — in particular no
transcription, embedding or vector-store call happens
(`determineFileType` runs before the `try` block and before any remote
call). -/
theorem processFile_unsupported (env : Env) (buffer filename : JStr)
    (h1 : extOf filename ∉ allowedTextFormats)
    (h2 : extOf filename ∉ audioExtensions)
    (h3 : extOf filename ∉ videoExtensions) :
    processFile env buffer filename
        = (.error (("Unsupported file type: ".data) ++ extOf filename), []) ∧
      ∀ ev ∈ (processFile env buffer filename).2, isRemoteEv ev = false := by
  have hd : determineFileType filename
      = .error (("Unsupported file type: ".data) ++ extOf filename) := by
    rw [determineFileType, if_neg h1, if_neg h2, if_neg h3]
  have hp : processFile env buffer filename
      = (.error (("Unsupported file type: ".data) ++ extOf filename), []) := by
    rw [processFile, hd]
  refine ⟨hp, ?_⟩
  rw [hp]
  intro ev hev
  exact absurd hev (List.not_mem_nil ev)

/-- Witness for `processFile_unsupported` at a concrete input. -/
theorem processFile_unsupported_witness :
    (extOf ("a.xyz".data) ∉ allowedTextFormats ∧
        extOf ("a.xyz".data) ∉ audioExtensions ∧
        extOf ("a.xyz".data) ∉ videoExtensions) ∧
      processFile sampleEnv ("hi".data) ("a.xyz".data)
          = (.error (("Unsupported file type: ".data) ++ extOf ("a.xyz".data)), []) ∧
        ∀ ev ∈ (processFile sampleEnv ("hi".data) ("a.xyz".data)).2,
          isRemoteEv ev = false :=
  ⟨⟨by decide, by decide, by decide⟩,
    processFile_unsupported sampleEnv ("hi".data) ("a.xyz".data)
      (by decide) (by decide) (by decide)⟩

/-! ### Claim C2: cleanup of registered temp files on failure -/

/-- The temp files registered for cleanup, read off the event trace. -/
def registeredOf (tr : List Ev) : List JStr :=
  tr.filterMap (fun ev => match ev with | .register p => some p | _ => none)

@[simp] theorem registeredOf_nil : registeredOf [] = [] := rfl

@[simp] theorem registeredOf_cons_save (p : JStr) (tr : List Ev) :
    registeredOf (Ev.save p :: tr) = registeredOf tr := rfl

@[simp] theorem registeredOf_cons_register (p : JStr) (tr : List Ev) :
    registeredOf (Ev.register p :: tr) = p :: registeredOf tr := rfl

@[simp] theorem registeredOf_cons_createSeg (p : JStr) (tr : List Ev) :
    registeredOf (Ev.createSeg p :: tr) = registeredOf tr := rfl

@[simp] theorem registeredOf_cons_createAudio (p : JStr) (tr : List Ev) :
    registeredOf (Ev.createAudio p :: tr) = registeredOf tr := rfl

@[simp] theorem registeredOf_cons_callTranscribe (p : JStr) (tr : List Ev) :
    registeredOf (Ev.callTranscribe p :: tr) = registeredOf tr := rfl

@[simp] theorem registeredOf_cons_callEmbed (t : JStr) (tr : List Ev) :
    registeredOf (Ev.callEmbed t :: tr) = registeredOf tr := rfl

@[simp] theorem registeredOf_cons_callEmbedBatch (ts : List JStr) (tr : List Ev) :
    registeredOf (Ev.callEmbedBatch ts :: tr) = registeredOf tr := rfl

@[simp] theorem registeredOf_cons_callUpsert (id : JStr) (tr : List Ev) :
    registeredOf (Ev.callUpsert id :: tr) = registeredOf tr := rfl

@[simp] theorem registeredOf_cons_unlink (p : JStr) (ok : Bool) (tr : List Ev) :
    registeredOf (Ev.unlink p ok :: tr) = registeredOf tr := rfl

@[simp] theorem registeredOf_append (t1 t2 : List Ev) :
    registeredOf (t1 ++ t2) = registeredOf t1 ++ registeredOf t2 := by
  rw [registeredOf, registeredOf, registeredOf, List.filterMap_append]

@[simp] theorem registeredOf_cleanupEvs (env : Env) (files : List JStr) :
    registeredOf (cleanupEvs env files) = [] := by
  induction files with
  | nil => rfl
  | cons p rest ih => rw [cleanupEvs, List.map_cons]; simpa [cleanupEvs] using ih

@[simp] theorem registeredOf_createEmbeddingRun (env : Env) (t : JStr) :
    registeredOf (createEmbeddingRun env t).2 = [] := by
  rw [createEmbeddingRun]
  rcases h : env.embedOne (truncate8000 t) with e | v <;> simp [h]

@[simp] theorem registeredOf_createEmbeddingsRun (env : Env) (ts : List JStr) :
    registeredOf (createEmbeddingsRun env ts).2 = [] := by
  rw [createEmbeddingsRun]
  rcases h : env.embedBatch (ts.map truncate8000) with e | v <;> simp [h]

@[simp] theorem registeredOf_processAudioFileRun (env : Env) (p name : JStr) :
    registeredOf (processAudioFileRun env p name).2 = [] := by
  rw [processAudioFileRun]
  rcases h : env.transcribe p with e | t
  · rfl
  · by_cases ht : jsTrim t = [] <;> simp [ht]

@[simp] theorem registeredOf_extractAudioRun (env : Env) (v : JStr) :
    registeredOf (extractAudioRun env v).2 = [] := by
  rw [extractAudioRun]
  rcases h : env.extractExec v with e | u <;> simp

theorem registeredOf_segRunGo (env : Env) : ∀ (cmds : List SegCmd),
    registeredOf (segRunGo env cmds).2.2 = [] := by
  intro cmds
  induction cmds with
  | nil => rfl
  | cons cmd rest ih =>
    rw [segRunGo]
    rcases h : env.segExec cmd.path with e | u <;> simp [ih]

@[simp] theorem registeredOf_map_unlink (f : JStr → Bool) : ∀ (paths : List JStr),
    registeredOf (paths.map (fun p => Ev.unlink p (f p))) = [] := by
  intro paths
  induction paths with
  | nil => rfl
  | cons p rest ih => simpa using ih

@[simp] theorem registeredOf_map_register : ∀ (segs : List JStr),
    registeredOf (segs.map Ev.register) = segs := by
  intro segs
  induction segs with
  | nil => rfl
  | cons s t ih => simpa using ih

@[simp] theorem registeredOf_segmentVideoRun (env : Env) (v : JStr) (m : Nat) :
    registeredOf (segmentVideoRun env v m).2 = [] := by
  rw [segmentVideoRun]
  rcases h : segRunGo env (segmentCmds v m (env.duration v)) with ⟨err, paths, evs⟩
  have h2 : registeredOf evs = [] := by
    have h3 := registeredOf_segRunGo env (segmentCmds v m (env.duration v))
    rw [h] at h3
    exact h3
  cases err with
  | none => rw [segFinish]; exact h2
  | some e => rw [segFinish]; simp [h2]

theorem registeredOf_segLoopGo (env : Env) (filename : JStr) (n : Nat) :
    ∀ (segs : List JStr) (i : Nat),
      registeredOf (segLoopGo env filename n segs i).2.2.2
        = (segLoopGo env filename n segs i).2.2.1 := by
  intro segs
  induction segs with
  | nil => intro i; rfl
  | cons seg rest ih =>
    intro i
    rw [segLoopGo]
    rcases h1 : (extractAudioRun env seg).1 with e | apath
    · simp only [h1]
      simpa using registeredOf_extractAudioRun env seg
    · simp only [h1]
      rcases h4 : (processAudioFileRun env apath
          (filename ++ ("_segment_".data) ++ natToDec (i + 1))).1 with e | t <;>
        simp [ih (i + 1)]

theorem registeredOf_upsertBatchGo (env : Env) (docId : JStr) :
    ∀ (b : List JStr) (idx : Nat),
      registeredOf (upsertBatchGo env docId b idx).2 = [] := by
  intro b
  induction b with
  | nil => intro idx; rfl
  | cons c rest ih =>
    intro idx
    rw [upsertBatchGo]
    rcases h : env.upsert (chunkId docId idx) with e | u <;> simp [ih (idx + 1)]

theorem registeredOf_storeBatchesF (env : Env) (docId : JStr) :
    ∀ (fuel : Nat) (chunks : List JStr) (i : Nat),
      registeredOf (storeBatchesF env docId fuel chunks i).2 = [] := by
  intro fuel
  induction fuel with
  | zero => intro chunks i; rfl
  | succ fuel ih =>
    intro chunks i
    cases chunks with
    | nil => rw [storeBatchesF]; rfl
    | cons c rest =>
      rw [storeBatchesF]
      rcases h1 : (createEmbeddingsRun env ((c :: rest).take 5)).1 with e | v
      · simp only [h1]
        simpa using registeredOf_createEmbeddingsRun env ((c :: rest).take 5)
      · simp only [h1]
        rcases h2 : (upsertBatchGo env docId ((c :: rest).take 5) i).1 with _ | e <;>
          simp [registeredOf_upsertBatchGo, ih]

theorem registeredOf_shopifyEmbedGo (env : Env) : ∀ (docs : List ShopDoc),
    registeredOf (shopifyEmbedGo env docs).2 = [] := by
  intro docs
  induction docs with
  | nil => rfl
  | cons d rest ih =>
    rw [shopifyEmbedGo]
    rcases h1 : (createEmbeddingRun env d.content).1 with e | v
    · simp only [h1]
      simpa using registeredOf_createEmbeddingRun env d.content
    · simp only [h1]
      rcases h2 : env.upsert d.id with e | u <;> simp [ih]

@[simp] theorem registeredOf_embedAndStore (env : Env) (doc : PDoc)
    (chunks : List JStr) : registeredOf (embedAndStore env doc chunks).2 = [] := by
  rw [embedAndStore]
  by_cases h : chunks.length = 1
  · rw [if_pos h]
    rcases h1 : (createEmbeddingRun env doc.content).1 with e | v
    · simp only [h1]
      simpa using registeredOf_createEmbeddingRun env doc.content
    · simp only [h1]
      rcases h2 : env.upsert doc.id with e | u <;> simp
  · rw [if_neg h]
    exact registeredOf_storeBatchesF env doc.id chunks.length chunks 0

theorem registeredOf_extractContent (env : Env) (buffer filename up : JStr)
    (ft : FileType) :
    registeredOf (extractContent env buffer filename up ft).2.2
      = (extractContent env buffer filename up ft).2.1 := by
  rcases ft with _ | _ | _
  · rw [extractContent]
    rcases h : processTextFileRun env buffer filename with e | c <;> rfl
  · rw [extractContent]
    rcases h : (processAudioFileRun env up filename).1 with e | c <;>
      · simp only [h]
        simpa using registeredOf_processAudioFileRun env up filename
  · rw [extractContent]
    by_cases hsz : env.fileSize up > env.maxFileSize
    · rw [if_pos hsz]
      rcases h2 : segmentVideoRun env up 10 with ⟨res, evs⟩
      have hevs : registeredOf evs = [] := by
        have h3 := registeredOf_segmentVideoRun env up 10
        rw [h2] at h3
        exact h3
      rcases res with e | segs
      · exact hevs
      · have hloop := registeredOf_segLoopGo env filename segs.length segs 0
        rcases h3 : (segLoopGo env filename segs.length segs 0).1 with _ | e <;>
          · simp only [h3] at hloop ⊢
            simp [hevs, hloop]
    · rw [if_neg hsz]
      rcases h2 : (extractAudioRun env up).1 with e | apath
      · simp only [h2]
        simpa using registeredOf_extractAudioRun env up
      · simp only [h2]
        rcases h3 : (processAudioFileRun env apath filename).1 with e | c <;> simp

/-- The registration list returned by the `processFile` body is exactly the
sequence of registration events in its trace, in order. -/
theorem processFileAux_registered (env : Env) (buffer filename : JStr) (ft : FileType) :
    registeredOf (processFileAux env buffer filename ft).2.2
      = (processFileAux env buffer filename ft).2.1 := by
  rw [processFileAux]
  by_cases hs : isShopifyCsv filename = true
  · rw [if_pos hs]
    rcases h1 : env.parseCsv buffer with e | records
    · rfl
    · rcases h2 : (shopifyEmbedGo env
          (processShopifyRecords env.uuid records filename)).1 with _ | e <;>
        · simp only [h2]
          have h3 := registeredOf_shopifyEmbedGo env
            (processShopifyRecords env.uuid records filename)
          simpa [h2] using h3
  · rw [if_neg hs]
    rcases h1 : env.saveOk with e | u
    · rfl
    · have hx := registeredOf_extractContent env buffer filename
        (uploadPath env filename) ft
      rcases h2 : (extractContent env buffer filename (uploadPath env filename) ft)
        with ⟨res, xfiles, xevs⟩
      rw [h2] at hx
      simp only [] at hx
      simp only [h2]
      rcases res with e | pair
      · simp [hx]
      · rcases pair with ⟨content, steps⟩
        rcases h3 : (embedAndStore env
            { id := env.uuid 0
              filename := filename
              content := content
              source := fileTypeStr ft
              originalFormat := originalFormatOf filename
              processingSteps := steps
              duration := if ft = FileType.text then none
                else some (env.duration (uploadPath env filename)) }
            (splitTextIntoChunks content 8000 200)).1 with _ | e <;>
          simp [h3, hx]

/-! Deletion outcomes never influence control flow (`cleanupFile` catches
and logs): the run's result is invariant under the unlink oracle. -/

theorem segRunGo_unlink_inv (env : Env) (g : JStr → Bool) : ∀ (cmds : List SegCmd),
    segRunGo { env with unlinkOk := g } cmds = segRunGo env cmds := by
  intro cmds
  induction cmds with
  | nil => rfl
  | cons cmd rest ih => simp only [segRunGo, ih]

theorem segmentVideoRun_res_unlink_inv (env : Env) (g : JStr → Bool) (v : JStr) (m : Nat) :
    (segmentVideoRun { env with unlinkOk := g } v m).1 = (segmentVideoRun env v m).1 := by
  rw [segmentVideoRun, segmentVideoRun]
  have h2 : ({ env with unlinkOk := g } : Env).duration = env.duration := rfl
  rw [h2, segRunGo_unlink_inv]
  rcases h : segRunGo env (segmentCmds v m (env.duration v)) with ⟨err, paths, evs⟩
  cases err <;> rfl

theorem segLoopGo_unlink_inv (env : Env) (g : JStr → Bool) (filename : JStr) (n : Nat) :
    ∀ (segs : List JStr) (i : Nat),
      segLoopGo { env with unlinkOk := g } filename n segs i
        = segLoopGo env filename n segs i := by
  intro segs
  induction segs with
  | nil => intro i; rfl
  | cons seg rest ih =>
    intro i
    have h1 : extractAudioRun { env with unlinkOk := g } seg = extractAudioRun env seg :=
      rfl
    have h2 : ∀ p name, processAudioFileRun { env with unlinkOk := g } p name
        = processAudioFileRun env p name := fun _ _ => rfl
    simp only [segLoopGo, h1, h2, ih]

theorem upsertBatchGo_unlink_inv (env : Env) (g : JStr → Bool) (docId : JStr) :
    ∀ (b : List JStr) (idx : Nat),
      upsertBatchGo { env with unlinkOk := g } docId b idx
        = upsertBatchGo env docId b idx := by
  intro b
  induction b with
  | nil => intro idx; rfl
  | cons c rest ih => intro idx; simp only [upsertBatchGo, ih]

theorem storeBatchesF_unlink_inv (env : Env) (g : JStr → Bool) (docId : JStr) :
    ∀ (fuel : Nat) (chunks : List JStr) (i : Nat),
      storeBatchesF { env with unlinkOk := g } docId fuel chunks i
        = storeBatchesF env docId fuel chunks i := by
  intro fuel
  induction fuel with
  | zero => intro chunks i; rfl
  | succ fuel ih =>
    intro chunks i
    cases chunks with
    | nil => rfl
    | cons c rest =>
      have h1 : createEmbeddingsRun { env with unlinkOk := g } ((c :: rest).take 5)
          = createEmbeddingsRun env ((c :: rest).take 5) := rfl
      rw [storeBatchesF, storeBatchesF]
      simp only [h1, upsertBatchGo_unlink_inv, ih]

theorem shopifyEmbedGo_unlink_inv (env : Env) (g : JStr → Bool) :
    ∀ (docs : List ShopDoc),
      shopifyEmbedGo { env with unlinkOk := g } docs = shopifyEmbedGo env docs := by
  intro docs
  induction docs with
  | nil => rfl
  | cons d rest ih =>
    have h1 : createEmbeddingRun { env with unlinkOk := g } d.content
        = createEmbeddingRun env d.content := rfl
    simp only [shopifyEmbedGo, h1, ih]

theorem embedAndStore_unlink_inv (env : Env) (g : JStr → Bool) (doc : PDoc)
    (chunks : List JStr) :
    embedAndStore { env with unlinkOk := g } doc chunks = embedAndStore env doc chunks := by
  rw [embedAndStore, embedAndStore]
  by_cases h : chunks.length = 1
  · rw [if_pos h, if_pos h]
    rfl
  · rw [if_neg h, if_neg h, storeBatches, storeBatches, storeBatchesF_unlink_inv]

theorem extractContent_res_unlink_inv (env : Env) (g : JStr → Bool)
    (buffer filename up : JStr) (ft : FileType) :
    (extractContent { env with unlinkOk := g } buffer filename up ft).1
        = (extractContent env buffer filename up ft).1 ∧
      (extractContent { env with unlinkOk := g } buffer filename up ft).2.1
        = (extractContent env buffer filename up ft).2.1 := by
  rcases ft with _ | _ | _
  · exact ⟨rfl, rfl⟩
  · exact ⟨rfl, rfl⟩
  · rw [extractContent, extractContent]
    have hfs : ({ env with unlinkOk := g } : Env).fileSize = env.fileSize := rfl
    have hmax : ({ env with unlinkOk := g } : Env).maxFileSize = env.maxFileSize := rfl
    rw [hfs, hmax]
    by_cases hsz : env.fileSize up > env.maxFileSize
    · rw [if_pos hsz, if_pos hsz]
      have hseg1 := segmentVideoRun_res_unlink_inv env g up 10
      rcases h2 : segmentVideoRun env up 10 with ⟨res, evs⟩
      rw [h2] at hseg1
      rcases h3 : segmentVideoRun { env with unlinkOk := g } up 10 with ⟨res2, evs2⟩
      rw [h3] at hseg1
      simp only [] at hseg1
      subst hseg1
      rcases res2 with e | segs
      · simp only [h2, h3]
        constructor <;> trivial
      · simp only [h2, h3, segLoopGo_unlink_inv]
        rcases h4 : (segLoopGo env filename segs.length segs 0).1 with _ | e <;>
          · simp only [h4]
            constructor <;> trivial
    · rw [if_neg hsz, if_neg hsz]
      have h1 : extractAudioRun { env with unlinkOk := g } up = extractAudioRun env up :=
        rfl
      rw [h1]
      rcases h2 : (extractAudioRun env up).1 with e | apath
      · simp only [h2]
        constructor <;> trivial
      · have h3 : processAudioFileRun { env with unlinkOk := g } apath filename
            = processAudioFileRun env apath filename := rfl
        simp only [h2, h3]
        constructor <;> trivial

theorem processFileAux_res_unlink_inv (env : Env) (g : JStr → Bool)
    (buffer filename : JStr) (ft : FileType) :
    (processFileAux { env with unlinkOk := g } buffer filename ft).1
        = (processFileAux env buffer filename ft).1 := by
  rw [processFileAux, processFileAux]
  by_cases hs : isShopifyCsv filename = true
  · rw [if_pos hs, if_pos hs]
    have hp : ({ env with unlinkOk := g } : Env).parseCsv = env.parseCsv := rfl
    have hu : ({ env with unlinkOk := g } : Env).uuid = env.uuid := rfl
    rw [hp, hu]
    simp only [shopifyEmbedGo_unlink_inv]
  · rw [if_neg hs, if_neg hs]
    obtain ⟨hx1, hx2⟩ := extractContent_res_unlink_inv env g buffer filename
      (uploadPath env filename) ft
    have hsv : ({ env with unlinkOk := g } : Env).saveOk = env.saveOk := rfl
    have hup : uploadPath { env with unlinkOk := g } filename
        = uploadPath env filename := rfl
    have hd : ({ env with unlinkOk := g } : Env).duration = env.duration := rfl
    have huu : ({ env with unlinkOk := g } : Env).uuid = env.uuid := rfl
    have hes : ∀ (doc : PDoc) (chunks : List JStr),
        embedAndStore { env with unlinkOk := g } doc chunks
          = embedAndStore env doc chunks :=
      fun doc chunks => embedAndStore_unlink_inv env g doc chunks
    set envg := ({ env with unlinkOk := g } : Env) with hE
    rw [hsv]
    rcases h1 : env.saveOk with e | u
    · rfl
    · simp only [hup, hd, huu, hx1, hx2]
      rcases h2 : (extractContent env buffer filename (uploadPath env filename) ft).1
        with e | pair
      · simp only [h2]
      · rcases pair with ⟨content, steps⟩
        simp only [h2, hes]
        rcases h3 : (embedAndStore env
            { id := env.uuid 0
              filename := filename
              content := content
              source := fileTypeStr ft
              originalFormat := originalFormatOf filename
              processingSteps := steps
              duration := if ft = FileType.text then none
                else some (env.duration (uploadPath env filename)) }
            (splitTextIntoChunks content 8000 200)).1 with _ | e <;> simp only [h3]

/-- Claim C2: whenever `processFile` fails, its event trace is the body
trace followed by exactly one deletion attempt per registered temp file, in
registration order (the body trace holds the matching registration events);
and the run's outcome — in particular the surfaced error — is invariant
under the deletion oracle, i.e. deletions are best-effort and never
re-raise. -/
theorem processFile_cleanup (env : Env) (buffer filename : JStr) (e : Err)
    (h : (processFile env buffer filename).1 = .error e) :
    (∃ t, (processFile env buffer filename).2 = t ++ cleanupEvs env (registeredOf t) ∧
        registeredOf t = registeredOf (processFile env buffer filename).2) ∧
      ∀ g : JStr → Bool,
        (processFile { env with unlinkOk := g } buffer filename).1 = .error e := by
  constructor
  · rw [processFile]
    rcases hd : determineFileType filename with e2 | ft
    · exact ⟨[], by simp [cleanupEvs], by simp⟩
    · refine ⟨(processFileAux env buffer filename ft).2.2, ?_, ?_⟩
      · rw [processFileAux_registered]
      · simp [processFileAux_registered]
  · intro g
    have hinv : (processFile { env with unlinkOk := g } buffer filename).1
        = (processFile env buffer filename).1 := by
      rw [processFile, processFile]
      rcases hd : determineFileType filename with e2 | ft
      · rfl
      · rw [processFileAux_res_unlink_inv]
    rw [hinv, h]

/-- A concrete environment whose transcription call fails. -/
def transcribeFailEnv : Env := { sampleEnv with transcribe := fun _ => .error ("boom".data) }

/-- Witness for `processFile_cleanup` at a concrete failing run. -/
theorem processFile_cleanup_witness :
    (processFile transcribeFailEnv ("x".data) ("a.mp3".data)).1
        = .error (("Failed to transcribe audio file: ".data) ++ ("a.mp3".data)) ∧
      ((∃ t, (processFile transcribeFailEnv ("x".data) ("a.mp3".data)).2
            = t ++ cleanupEvs transcribeFailEnv (registeredOf t) ∧
          registeredOf t
            = registeredOf (processFile transcribeFailEnv ("x".data) ("a.mp3".data)).2) ∧
        ∀ g : JStr → Bool,
          (processFile { transcribeFailEnv with unlinkOk := g } ("x".data) ("a.mp3".data)).1
            = .error (("Failed to transcribe audio file: ".data) ++ ("a.mp3".data))) :=
  ⟨by rfl,
    processFile_cleanup transcribeFailEnv ("x".data) ("a.mp3".data) _ (by rfl)⟩

/-! ### Claim C8: embedding proceeds in sequential batches of five -/

/-- The slices `chunks.slice(i, i + batchSize)` visited by the batch loop
(src/unnamed/part_004 lines 176-182), fuel-indexed like the loop itself. -/
def batchesOf5F : Nat → List JStr → List (List JStr)
  | 0, _ => []
  | _ + 1, [] => []
  | fuel + 1, c :: rest => ((c :: rest).take 5) :: batchesOf5F fuel ((c :: rest).drop 5)

/-- The batch slices of the embed-and-store loop. -/
def batchesOf5 (chunks : List JStr) : List (List JStr) :=
  batchesOf5F chunks.length chunks

/-- The upsert events of one batch: consecutive chunk indices from `i`. -/
def upsertEvs (docId : JStr) : Nat → Nat → List Ev
  | 0, _ => []
  | m + 1, i => Ev.callUpsert (chunkId docId i) :: upsertEvs docId m (i + 1)

/-- The events of one fully successful batch: one batched embedding call
carrying the batch's texts, then the batch's upserts. -/
def batchEvs (docId : JStr) (b : List JStr) (i : Nat) : List Ev :=
  Ev.callEmbedBatch (b.map truncate8000) :: upsertEvs docId b.length i

/-- The expected trace of the whole loop: the batches' event blocks in
batch order; the next batch's block starts only after the previous one's
is complete. -/
def batchesTrace (docId : JStr) : List (List JStr) → Nat → List Ev
  | [], _ => []
  | b :: bs, i => batchEvs docId b i ++ batchesTrace docId bs (i + 5)

theorem upsertBatchGo_all_ok (env : Env) (docId : JStr)
    (hup : ∀ s : JStr, env.upsert s = .ok ()) :
    ∀ (b : List JStr) (i : Nat),
      upsertBatchGo env docId b i = (none, upsertEvs docId b.length i) := by
  intro b
  induction b with
  | nil => intro i; rfl
  | cons c rest ih =>
    intro i
    simp only [upsertBatchGo, hup (chunkId docId i), ih, List.length_cons, upsertEvs]

theorem createEmbeddingsRun_all_ok (env : Env) (ts : List JStr)
    (hemb : ∃ v, env.embedBatch (ts.map truncate8000) = .ok v) :
    ∃ v, createEmbeddingsRun env ts
      = (.ok v, [Ev.callEmbedBatch (ts.map truncate8000)]) := by
  obtain ⟨v, hv⟩ := hemb
  exact ⟨v, by simp only [createEmbeddingsRun, hv]⟩

theorem storeBatchesF_all_ok (env : Env) (docId : JStr)
    (hemb : ∀ ts, ∃ v, env.embedBatch ts = .ok v)
    (hup : ∀ s : JStr, env.upsert s = .ok ()) :
    ∀ (fuel : Nat) (chunks : List JStr) (i : Nat),
      storeBatchesF env docId fuel chunks i
        = (none, batchesTrace docId (batchesOf5F fuel chunks) i) := by
  intro fuel
  induction fuel with
  | zero => intro chunks i; rfl
  | succ fuel ih =>
    intro chunks i
    cases chunks with
    | nil => rfl
    | cons c rest =>
      obtain ⟨v, hv⟩ := createEmbeddingsRun_all_ok env ((c :: rest).take 5) (hemb _)
      rw [storeBatchesF]
      simp only [hv, upsertBatchGo_all_ok env docId hup, ih, batchesOf5F,
        batchesTrace, batchEvs, List.cons_append, List.nil_append,
        List.singleton_append, List.append_assoc]

theorem batchesOf5F_join : ∀ (fuel : Nat) (chunks : List JStr),
    chunks.length ≤ fuel → (batchesOf5F fuel chunks).flatten = chunks := by
  intro fuel
  induction fuel with
  | zero =>
    intro chunks h
    rw [List.eq_nil_of_length_eq_zero (Nat.le_zero.mp h)]
    rfl
  | succ fuel ih =>
    intro chunks h
    cases chunks with
    | nil => rfl
    | cons c rest =>
      have hd : ((c :: rest).drop 5).length ≤ fuel := by
        simp only [List.length_drop, List.length_cons]
        simp only [List.length_cons] at h
        omega
      simp only [batchesOf5F, List.flatten_cons]
      rw [ih _ hd]
      exact List.take_append_drop 5 (c :: rest)

theorem batchesOf5F_mem : ∀ (fuel : Nat) (chunks : List JStr) (b : List JStr),
    b ∈ batchesOf5F fuel chunks → 0 < b.length ∧ b.length ≤ 5 := by
  intro fuel
  induction fuel with
  | zero => intro chunks b h; simp [batchesOf5F] at h
  | succ fuel ih =>
    intro chunks b h
    cases chunks with
    | nil => simp [batchesOf5F] at h
    | cons c rest =>
      simp only [batchesOf5F, List.mem_cons] at h
      rcases h with h | h
      · subst h
        simp only [List.length_take, List.length_cons]
        exact ⟨lt_min_iff.mpr ⟨by omega, by omega⟩, min_le_left 5 _⟩
      · exact ih _ _ h

theorem upsertEvs_no_embed (docId : JStr) :
    ∀ (m i : Nat) (ts : List JStr), Ev.callEmbedBatch ts ∉ upsertEvs docId m i := by
  intro m
  induction m with
  | zero => intro i ts h; simp [upsertEvs] at h
  | succ m ih =>
    intro i ts h
    simp only [upsertEvs, List.mem_cons] at h
    rcases h with h | h
    · exact Ev.noConfusion h
    · exact ih _ _ h

theorem batchesTrace_embed_mem (docId : JStr) :
    ∀ (bs : List (List JStr)) (i : Nat) (ts : List JStr),
      Ev.callEmbedBatch ts ∈ batchesTrace docId bs i →
        ∃ b ∈ bs, ts = b.map truncate8000 := by
  intro bs
  induction bs with
  | nil => intro i ts h; simp [batchesTrace] at h
  | cons b rest ih =>
    intro i ts h
    simp only [batchesTrace, batchEvs, List.mem_append, List.mem_cons] at h
    rcases h with (h | h) | h
    · exact ⟨b, List.mem_cons_self _ _, Ev.callEmbedBatch.inj h⟩
    · exact absurd h (upsertEvs_no_embed docId _ _ _)
    · obtain ⟨b2, hb2, hts⟩ := ih _ _ h
      exact ⟨b2, List.mem_cons_of_mem _ hb2, hts⟩

/-- Claim C8: when the multi-chunk path is taken and the provider calls
succeed, the embed-and-store loop processes the chunk list in fixed-size
batches of five: the batch slices partition the chunks in order, every
batch is nonempty with at most five chunks, the event trace is exactly the
batches' event blocks in sequence — one batched embedding call carrying
the batch's at most five texts, then that batch's upserts, with batch N+1
starting only after batch N completed — and no embedding call in the
trace ever carries more than five texts. -/
theorem embedAndStore_batches (env : Env) (doc : PDoc) (chunks : List JStr)
    (hlen : chunks.length ≠ 1)
    (hemb : ∀ ts, ∃ v, env.embedBatch ts = .ok v)
    (hup : ∀ s : JStr, env.upsert s = .ok ()) :
    (embedAndStore env doc chunks).1 = none ∧
      (embedAndStore env doc chunks).2 = batchesTrace doc.id (batchesOf5 chunks) 0 ∧
      (batchesOf5 chunks).flatten = chunks ∧
      (∀ b ∈ batchesOf5 chunks, 0 < b.length ∧ b.length ≤ 5) ∧
      (∀ ts, Ev.callEmbedBatch ts ∈ (embedAndStore env doc chunks).2 →
        ts.length ≤ 5) := by
  have he : embedAndStore env doc chunks = storeBatches env doc.id chunks := by
    rw [embedAndStore, if_neg hlen]
  have hs : storeBatches env doc.id chunks
      = (none, batchesTrace doc.id (batchesOf5 chunks) 0) := by
    rw [storeBatches, storeBatchesF_all_ok env doc.id hemb hup]
    rfl
  refine ⟨by rw [he, hs], by rw [he, hs], batchesOf5F_join _ _ le_rfl,
    fun b hb => batchesOf5F_mem _ _ _ hb, ?_⟩
  intro ts hts
  rw [he, hs] at hts
  obtain ⟨b, hb, hbe⟩ := batchesTrace_embed_mem doc.id _ _ _ hts
  have hl := (batchesOf5F_mem _ _ _ hb).2
  rw [hbe, List.length_map]
  exact hl

/-- A document and a seven-chunk list for the batching witness. -/
def batchDocW : PDoc :=
  { id := ("doc".data)
    filename := ("f.txt".data)
    content := ("t".data)
    source := ("document".data)
    originalFormat := ("txt".data)
    processingSteps := []
    duration := none }

def batchChunksW : List JStr :=
  ["c1", "c2", "c3", "c4", "c5", "c6", "c7"].map (fun s => s.data)

/-- Witness for `embedAndStore_batches`: seven chunks are embedded in two
sequential batches, of five and of two chunks. -/
theorem embedAndStore_batches_witness :
    batchChunksW.length ≠ 1 ∧
      (∀ ts, ∃ v, sampleEnv.embedBatch ts = .ok v) ∧
      (∀ s : JStr, sampleEnv.upsert s = .ok ()) ∧
      ((embedAndStore sampleEnv batchDocW batchChunksW).1 = none ∧
        (embedAndStore sampleEnv batchDocW batchChunksW).2
          = batchesTrace batchDocW.id (batchesOf5 batchChunksW) 0 ∧
        (batchesOf5 batchChunksW).flatten = batchChunksW ∧
        (∀ b ∈ batchesOf5 batchChunksW, 0 < b.length ∧ b.length ≤ 5) ∧
        (∀ ts, Ev.callEmbedBatch ts ∈ (embedAndStore sampleEnv batchDocW batchChunksW).2 →
          ts.length ≤ 5)) :=
  ⟨by decide, fun ts => ⟨ts.map (fun _ => ([1] : Emb)), rfl⟩, fun s => rfl,
    embedAndStore_batches sampleEnv batchDocW batchChunksW (by decide)
      (fun ts => ⟨ts.map (fun _ => ([1] : Emb)), rfl⟩) (fun s => rfl)⟩

/-! ### Claim C3: stored ids across runs and within a run -/

/-- The ids of the vector-store writes of a trace, in write order. -/
def upsertIds (evs : List Ev) : List JStr :=
  evs.filterMap (fun e => match e with | .callUpsert s => some s | _ => none)

theorem upsertIds_cons_upsert (s : JStr) (evs : List Ev) :
    upsertIds (Ev.callUpsert s :: evs) = s :: upsertIds evs := rfl

theorem upsertIds_cons_embedB (ts : List JStr) (evs : List Ev) :
    upsertIds (Ev.callEmbedBatch ts :: evs) = upsertIds evs := rfl

theorem upsertIds_append (l1 l2 : List Ev) :
    upsertIds (l1 ++ l2) = upsertIds l1 ++ upsertIds l2 := by
  simp [upsertIds, List.filterMap_append]

theorem range'_glue : ∀ (a i b : Nat),
    List.range' i a ++ List.range' (i + a) b = List.range' i (a + b) := by
  intro a
  induction a with
  | zero =>
    intro i b
    simp
  | succ a ih =>
    intro i b
    have h1 : i + (a + 1) = (i + 1) + a := by omega
    have h2 : a + 1 + b = (a + b) + 1 := by omega
    rw [List.range'_succ, h2, List.range'_succ, h1, List.cons_append, ih (i + 1) b]

theorem upsertIds_upsertEvs (docId : JStr) : ∀ (m i : Nat),
    upsertIds (upsertEvs docId m i) = (List.range' i m).map (chunkId docId) := by
  intro m
  induction m with
  | zero => intro i; rfl
  | succ m ih =>
    intro i
    rw [upsertEvs, upsertIds_cons_upsert, ih, List.range'_succ, List.map_cons]

theorem batchesOf5F_nilF : ∀ fuel : Nat, batchesOf5F fuel [] = [] := by
  intro fuel
  cases fuel <;> rfl

theorem upsertIds_batchesTrace (docId : JStr) :
    ∀ (fuel : Nat) (chunks : List JStr) (i : Nat), chunks.length ≤ fuel →
      upsertIds (batchesTrace docId (batchesOf5F fuel chunks) i)
        = (List.range' i chunks.length).map (chunkId docId) := by
  intro fuel
  induction fuel with
  | zero =>
    intro chunks i h
    rw [List.eq_nil_of_length_eq_zero (Nat.le_zero.mp h)]
    rfl
  | succ fuel ih =>
    intro chunks i h
    cases chunks with
    | nil => rfl
    | cons c rest =>
      rw [batchesOf5F, batchesTrace, batchEvs, upsertIds_append,
        upsertIds_cons_embedB, upsertIds_upsertEvs, List.length_take,
        List.length_cons]
      by_cases h5 : rest.length + 1 ≤ 5
      · have hmin : min 5 (rest.length + 1) = rest.length + 1 := by omega
        have hdrop : (c :: rest).drop 5 = [] := by
          apply List.drop_eq_nil_of_le
          simp only [List.length_cons]
          omega
        rw [hmin, hdrop, batchesOf5F_nilF, batchesTrace]
        simp [upsertIds]
      · have hmin : min 5 (rest.length + 1) = 5 := by omega
        have hlen2 : ((c :: rest).drop 5).length ≤ fuel := by
          simp only [List.length_drop, List.length_cons]
          simp only [List.length_cons] at h
          omega
        rw [hmin, ih _ _ hlen2, List.length_drop, List.length_cons,
          ← List.map_append]
        have hg := range'_glue 5 i (rest.length + 1 - 5)
        have h5' : 5 + (rest.length + 1 - 5) = rest.length + 1 := by omega
        rw [h5'] at hg
        rw [hg]

theorem chunkId_injective (docId : JStr) : Function.Injective (chunkId docId) := by
  intro j k h
  simp only [chunkId] at h
  exact natToDec_injective (List.append_cancel_left h)

/-- Claim C3 (amended): the document id of a run is a fresh uuid, so two
runs of the pipeline on the identical upload store their records under
different ids and a retry does not overwrite the first run's records.
Within one run the chunk-record ids are deterministic suffixes of the
run's document id: the store loop upserts exactly the ids
`docId-chunk-0 .. docId-chunk-(n-1)` in chunk order, all distinct, so
re-upserting with the same document id would overwrite chunk for chunk. -/
theorem storeBatches_ids (env : Env) (docId : JStr) (chunks : List JStr)
    (hemb : ∀ ts, ∃ v, env.embedBatch ts = .ok v)
    (hup : ∀ s : JStr, env.upsert s = .ok ()) :
    upsertIds (storeBatches env docId chunks).2
        = (List.range chunks.length).map (chunkId docId) ∧
      (upsertIds (storeBatches env docId chunks).2).Nodup := by
  have h1 : upsertIds (storeBatches env docId chunks).2
      = (List.range' 0 chunks.length).map (chunkId docId) := by
    rw [storeBatches, storeBatchesF_all_ok env docId hemb hup]
    exact upsertIds_batchesTrace docId chunks.length chunks 0 le_rfl
  constructor
  · rw [h1, List.range_eq_range']
  · rw [h1]
    exact (List.nodup_range' 0 chunks.length).map (chunkId_injective docId)

/-- An environment identical to `sampleEnv` except for the uuid stream, as
a second real run of the pipeline is. -/
def uuidVEnv : Env := { sampleEnv with uuid := fun k => ("v".data) ++ natToDec k }

/-- Counterexample to claim C3: two runs on the identical upload (same
byte buffer `"hi"`, same filename `"a.txt"`) that differ only in the uuid
oracle — as two real runs do, since `uuidv4()` draws fresh randomness per
run — both store a record, but under different ids: the stored id is the
run's fresh uuid, not a function of the upload, so the retried run does
not overwrite the first run's records. -/
theorem processFile_ids_counterexample :
    upsertIds (processFile sampleEnv ("hi".data) ("a.txt".data)).2 ≠ [] ∧
      upsertIds (processFile uuidVEnv ("hi".data) ("a.txt".data)).2 ≠ [] ∧
      upsertIds (processFile sampleEnv ("hi".data) ("a.txt".data)).2
        ≠ upsertIds (processFile uuidVEnv ("hi".data) ("a.txt".data)).2 :=
  ⟨by decide, by decide, by decide⟩

/-- Witness for `storeBatches_ids`: seven chunks stored under
`doc-chunk-0 .. doc-chunk-6`. -/
theorem storeBatches_ids_witness :
    (∀ ts, ∃ v, sampleEnv.embedBatch ts = .ok v) ∧
      (∀ s : JStr, sampleEnv.upsert s = .ok ()) ∧
      (upsertIds (storeBatches sampleEnv ("doc".data) batchChunksW).2
          = (List.range batchChunksW.length).map (chunkId ("doc".data)) ∧
        (upsertIds (storeBatches sampleEnv ("doc".data) batchChunksW).2).Nodup) :=
  ⟨fun ts => ⟨ts.map (fun _ => ([1] : Emb)), rfl⟩, fun s => rfl,
    storeBatches_ids sampleEnv ("doc".data) batchChunksW
      (fun ts => ⟨ts.map (fun _ => ([1] : Emb)), rfl⟩) (fun s => rfl)⟩

/-! ### Claim C7: oversized videos are segmented and transcribed per segment -/

/-- The marked per-segment transcripts, in segment order: the piece for
segment `i` (zero-based) is `[Segment i+1/n]`, a newline, then the
transcript of the segment's extracted audio. -/
def segTexts (T : JStr → JStr) (n : Nat) : List JStr → Nat → List JStr
  | [], _ => []
  | seg :: rest, i => (segMarker i n ++ T (mp3Path seg)) :: segTexts T n rest (i + 1)

/-- The events of a fully successful segment loop: per segment one audio
extraction, one cleanup registration, one transcription call. -/
def segLoopEvs : List JStr → List Ev
  | [] => []
  | seg :: rest => Ev.createAudio (mp3Path seg) :: Ev.register (mp3Path seg)
      :: Ev.callTranscribe (mp3Path seg) :: segLoopEvs rest

/-- The audio paths sent to transcription, in call order. -/
def transcribeCalls (evs : List Ev) : List JStr :=
  evs.filterMap (fun e => match e with | .callTranscribe p => some p | _ => none)

theorem transcribeCalls_cons_createSeg (p : JStr) (evs : List Ev) :
    transcribeCalls (Ev.createSeg p :: evs) = transcribeCalls evs := rfl

theorem transcribeCalls_cons_createAudio (p : JStr) (evs : List Ev) :
    transcribeCalls (Ev.createAudio p :: evs) = transcribeCalls evs := rfl

theorem transcribeCalls_cons_register (p : JStr) (evs : List Ev) :
    transcribeCalls (Ev.register p :: evs) = transcribeCalls evs := rfl

theorem transcribeCalls_cons_call (p : JStr) (evs : List Ev) :
    transcribeCalls (Ev.callTranscribe p :: evs) = p :: transcribeCalls evs := rfl

theorem transcribeCalls_append (l1 l2 : List Ev) :
    transcribeCalls (l1 ++ l2) = transcribeCalls l1 ++ transcribeCalls l2 := by
  simp [transcribeCalls, List.filterMap_append]

theorem transcribeCalls_createSeg_map (cmds : List SegCmd) :
    transcribeCalls (cmds.map (fun c => Ev.createSeg c.path)) = [] := by
  induction cmds with
  | nil => rfl
  | cons c rest ih => rw [List.map_cons, transcribeCalls_cons_createSeg, ih]

theorem transcribeCalls_register_map (segs : List JStr) :
    transcribeCalls (segs.map Ev.register) = [] := by
  induction segs with
  | nil => rfl
  | cons s rest ih => rw [List.map_cons, transcribeCalls_cons_register, ih]

theorem transcribeCalls_segLoopEvs : ∀ segs : List JStr,
    transcribeCalls (segLoopEvs segs) = segs.map mp3Path := by
  intro segs
  induction segs with
  | nil => rfl
  | cons seg rest ih =>
    rw [segLoopEvs, transcribeCalls_cons_createAudio, transcribeCalls_cons_register,
      transcribeCalls_cons_call, ih, List.map_cons]

theorem segRunGo_all_ok (env : Env) (hseg : ∀ p, env.segExec p = .ok ()) :
    ∀ cmds : List SegCmd,
      segRunGo env cmds
        = (none, cmds.map SegCmd.path, cmds.map (fun c => Ev.createSeg c.path)) := by
  intro cmds
  induction cmds with
  | nil => rfl
  | cons cmd rest ih =>
    simp only [segRunGo, hseg cmd.path, ih, List.map_cons]

theorem segmentVideoRun_all_ok (env : Env) (v : JStr) (m : Nat)
    (hseg : ∀ p, env.segExec p = .ok ()) :
    segmentVideoRun env v m
      = (.ok ((segmentCmds v m (env.duration v)).map SegCmd.path),
          (segmentCmds v m (env.duration v)).map (fun c => Ev.createSeg c.path)) := by
  rw [segmentVideoRun, segRunGo_all_ok env hseg]
  rfl

theorem segLoopGo_all_ok (env : Env) (filename : JStr) (T : JStr → JStr)
    (hext : ∀ p, env.extractExec p = .ok ())
    (htr : ∀ p, env.transcribe p = .ok (T p))
    (htrne : ∀ p, jsTrim (T p) ≠ []) (n : Nat) :
    ∀ (segs : List JStr) (i : Nat),
      segLoopGo env filename n segs i
        = (none, segTexts T n segs i, segs.map mp3Path, segLoopEvs segs) := by
  intro segs
  induction segs with
  | nil => intro i; rfl
  | cons seg rest ih =>
    intro i
    simp only [segLoopGo, extractAudioRun, hext seg, processAudioFileRun,
      htr (mp3Path seg), if_neg (htrne (mp3Path seg)), ih, segTexts, segLoopEvs,
      List.map_cons, List.cons_append, List.nil_append, List.singleton_append,
      List.append_assoc]

/-- Claim C7: when a video's size exceeds the single-file processing
ceiling, the video branch segments it first; each of the `n` segments is
independently audio-extracted and transcribed — the trace's transcription
calls are exactly the segments' extracted audio paths in segment order —
and the extracted content is the concatenation, in segment order and
joined with blank lines, of the per-segment transcripts, each prefixed
with the marker `[Segment i/n]`. -/
theorem extractContent_segmented (env : Env) (buffer filename up : JStr)
    (T : JStr → JStr)
    (hsz : env.fileSize up > env.maxFileSize)
    (hseg : ∀ p, env.segExec p = .ok ())
    (hext : ∀ p, env.extractExec p = .ok ())
    (htr : ∀ p, env.transcribe p = .ok (T p))
    (htrne : ∀ p, jsTrim (T p) ≠ []) :
    ∃ segs : List JStr,
      segs = (segmentCmds up 10 (env.duration up)).map SegCmd.path ∧
      (extractContent env buffer filename up .video).1
        = .ok (jsJoinS ("\n\n".data) (segTexts T segs.length segs 0),
            [("video_segmentation".data),
              ("processed_".data) ++ natToDec segs.length ++ ("_segments".data)]) ∧
      transcribeCalls (extractContent env buffer filename up .video).2.2
        = segs.map mp3Path := by
  have hmain : extractContent env buffer filename up .video
      = (.ok (jsJoinS ("\n\n".data)
            (segTexts T ((segmentCmds up 10 (env.duration up)).map SegCmd.path).length
              ((segmentCmds up 10 (env.duration up)).map SegCmd.path) 0),
          [("video_segmentation".data),
            ("processed_".data)
              ++ natToDec ((segmentCmds up 10 (env.duration up)).map SegCmd.path).length
              ++ ("_segments".data)]),
        ((segmentCmds up 10 (env.duration up)).map SegCmd.path)
          ++ ((segmentCmds up 10 (env.duration up)).map SegCmd.path).map mp3Path,
        (segmentCmds up 10 (env.duration up)).map (fun c => Ev.createSeg c.path)
          ++ ((segmentCmds up 10 (env.duration up)).map SegCmd.path).map Ev.register
          ++ segLoopEvs ((segmentCmds up 10 (env.duration up)).map SegCmd.path)) := by
    rw [extractContent, if_pos hsz, segmentVideoRun_all_ok env up 10 hseg]
    simp only [segLoopGo_all_ok env filename T hext htr htrne]
  refine ⟨(segmentCmds up 10 (env.duration up)).map SegCmd.path, rfl, ?_, ?_⟩
  · rw [hmain]
  · rw [hmain]
    rw [transcribeCalls_append, transcribeCalls_append,
      transcribeCalls_createSeg_map, transcribeCalls_register_map,
      transcribeCalls_segLoopEvs, List.nil_append, List.nil_append]

/-- An environment whose probed video file is over the size ceiling and
lasts 1800 seconds, with every external call succeeding. -/
def bigVideoEnv : Env :=
  { sampleEnv with fileSize := fun _ => 200000000, duration := fun _ => 1800 }

/-- Witness for `extractContent_segmented` at a 1800-second oversized
video with a 10-minute window. -/
theorem extractContent_segmented_witness :
    bigVideoEnv.fileSize ("b.mp4".data) > bigVideoEnv.maxFileSize ∧
      (∀ p, bigVideoEnv.segExec p = .ok ()) ∧
      (∀ p, bigVideoEnv.extractExec p = .ok ()) ∧
      (∀ p : JStr, bigVideoEnv.transcribe p = .ok ("hello there".data)) ∧
      (jsTrim ("hello there".data) ≠ ([] : JStr)) ∧
      ∃ segs : List JStr,
        segs = (segmentCmds ("b.mp4".data) 10
            (bigVideoEnv.duration ("b.mp4".data))).map SegCmd.path ∧
        (extractContent bigVideoEnv ("x".data) ("b.mp4".data) ("b.mp4".data) .video).1
          = .ok (jsJoinS ("\n\n".data)
              (segTexts (fun _ => ("hello there".data)) segs.length segs 0),
              [("video_segmentation".data),
                ("processed_".data) ++ natToDec segs.length ++ ("_segments".data)]) ∧
        transcribeCalls
            (extractContent bigVideoEnv ("x".data) ("b.mp4".data) ("b.mp4".data) .video).2.2
          = segs.map mp3Path :=
  have hw : jsTrim ("hello there".data) ≠ ([] : JStr) := by decide
  ⟨by decide, fun p => rfl, fun p => rfl, fun p => rfl, hw,
    extractContent_segmented bigVideoEnv ("x".data) ("b.mp4".data) ("b.mp4".data)
      (fun _ => ("hello there".data)) (by decide) (fun p => rfl) (fun p => rfl)
      (fun p => rfl) (fun p => hw)⟩

end Rag
